import Mathlib

/-!
Verification of the Settings Resolution Engine of auto-slicer2.

This file gives a shallow embedding of the engine's data model and
operations (src/auto_slicer/settings_eval.py, slicer.py,
settings_validate.py, settings_registry.py) and proves the frozen claims
about them.  Python dicts are embedded as insertion-ordered association
lists, Python numbers as Int/Rat, and the restricted expression language
evaluated by the engine as an explicit AST.
-/

namespace AutoSlicer

/-! Insertion-ordered string-keyed dictionaries, mirroring Python dict
semantics: assignment replaces in place, new keys append at the end. -/

abbrev Dict (α : Type) := List (String × α)

def dget {α : Type} : Dict α → String → Option α
  | [], _ => none
  | (k, v) :: rest, key => if k = key then some v else dget rest key

def dinsert {α : Type} : Dict α → String → α → Dict α
  | [], key, v => [(key, v)]
  | (k, w) :: rest, key, v =>
      if k = key then (k, v) :: rest else (k, w) :: dinsert rest key v

/-- Python `d.update(other)`: fold insertion of the other dict's items. -/
def dupdate {α : Type} (d other : Dict α) : Dict α :=
  other.foldl (fun acc p => dinsert acc p.1 p.2) d

/-- Python `del d[key]` / `d.pop(key, None)` (dict keys are unique). -/
def derase {α : Type} (d : Dict α) (key : String) : Dict α :=
  d.filter (fun p => p.1 ≠ key)

def dkeys {α : Type} (d : Dict α) : List String := d.map Prod.fst

/-- Python `key in d`. -/
def dmem {α : Type} (d : Dict α) (key : String) : Bool :=
  (dget d key).isSome

/-- First-some choice on options (strict orElse). -/
def oOr {α : Type} : Option α → Option α → Option α
  | some a, _ => some a
  | none, b => b

/-! Python runtime values, restricted to the types the engine handles. -/

inductive PyVal where
  | vint (n : Int)
  | vfloat (q : Rat)
  | vbool (b : Bool)
  | vstr (s : String)
  | vnone
  | vlist (l : List PyVal)
deriving Repr, Inhabited

/-! Exact rational arithmetic, written via Rat.divInt so that every
operation reduces inside the kernel (the library's +, *, / on Rat do
not); Rat.divInt normalizes, so the results are ordinary rationals. -/

def ratAdd (x y : Rat) : Rat :=
  Rat.divInt (x.num * y.den + y.num * x.den) (x.den * y.den)

def ratSub (x y : Rat) : Rat :=
  Rat.divInt (x.num * y.den - y.num * x.den) (x.den * y.den)

def ratMul (x y : Rat) : Rat :=
  Rat.divInt (x.num * y.num) (x.den * y.den)

def ratDiv (x y : Rat) : Rat :=
  Rat.divInt (x.num * y.den) (x.den * y.num)

def ratNeg (x : Rat) : Rat := Rat.divInt (-x.num) x.den

def ratAbs (x : Rat) : Rat := Rat.divInt (x.num.natAbs : Int) x.den

def intToRat (n : Int) : Rat := Rat.divInt n 1

def ratPow10 (k : Nat) : Rat := Rat.divInt ((10 : Int) ^ k) 1

/-- Python truthiness. -/
def truthy : PyVal → Bool
  | .vint n => n != 0
  | .vfloat q => q.num != 0
  | .vbool b => b
  | .vstr s => s != ""
  | .vnone => false
  | .vlist l => !l.isEmpty

/-- View a value as a number, the way Python arithmetic does
(bool is an int subtype). -/
def asRat? : PyVal → Option Rat
  | .vint n => some (intToRat n)
  | .vfloat q => some q
  | .vbool b => some (intToRat (if b then 1 else 0))
  | _ => none

/-- View a value as a Python int (int or bool). -/
def asInt? : PyVal → Option Int
  | .vint n => some n
  | .vbool b => some (if b then 1 else 0)
  | _ => none

/-! Decimal parsing, mirroring Python float()/int() on strings. -/

def isDigitChar (c : Char) : Bool := '0' ≤ c && c ≤ '9'

def digitsToNat (ds : List Char) : Nat :=
  ds.foldl (fun a c => a * 10 + (c.toNat - 48)) 0

/-- Split an optional leading sign, returning (negative?, rest). -/
def splitSign : List Char → Bool × List Char
  | '-' :: r => (true, r)
  | '+' :: r => (false, r)
  | r => (false, r)

def isSpaceChar (c : Char) : Bool :=
  c = ' ' || c = '\t' || c = '\n' || c = '\r'

/-- Strip surrounding whitespace (Python's str.strip as applied by
float()/int() to their argument). -/
def stripChars (cs : List Char) : List Char :=
  ((cs.dropWhile isSpaceChar).reverse.dropWhile isSpaceChar).reverse

/-- Python `float(str)`: optional sign, decimal digits with optional
fractional part and optional exponent, surrounding whitespace
stripped. -/
def parseFloat (s : String) : Option Rat :=
  let cs := stripChars s.data
  let (neg, cs) := splitSign cs
  let intPart := cs.takeWhile isDigitChar
  let rest := cs.dropWhile isDigitChar
  let (fracPart, rest) :=
    match rest with
    | '.' :: r => (r.takeWhile isDigitChar, r.dropWhile isDigitChar)
    | r => ([], r)
  if intPart.isEmpty && fracPart.isEmpty then none
  else
    let base : Rat :=
      ratAdd (intToRat (digitsToNat intPart))
        (Rat.divInt (digitsToNat fracPart) ((10 : Int) ^ fracPart.length))
    let signed := if neg then ratNeg base else base
    match rest with
    | [] => some signed
    | 'e' :: r => parseExponent signed r
    | 'E' :: r => parseExponent signed r
    | _ => none
where
  parseExponent (base : Rat) (r : List Char) : Option Rat :=
    let (eneg, r) := splitSign r
    let eDigits := r.takeWhile isDigitChar
    let leftover := r.dropWhile isDigitChar
    if eDigits.isEmpty || !leftover.isEmpty then none
    else
      let e := digitsToNat eDigits
      some (if eneg then ratDiv base (ratPow10 e) else ratMul base (ratPow10 e))

/-- Python `int(str)`: optional sign and decimal digits only. -/
def parseIntStr (s : String) : Option Int :=
  let cs := stripChars s.data
  let (neg, cs) := splitSign cs
  if cs.isEmpty || !(cs.all isDigitChar) then none
  else
    let n : Int := (digitsToNat cs : Int)
    some (if neg then -n else n)

/-! Rendering values back to strings, mirroring Python str(). -/

/-- A single-quote character as a string (used by Python repr of str). -/
def sQuote : String := String.mk [Char.ofNat 39]

def padZeros (s : String) (k : Nat) : String :=
  if s.length ≥ k then s else String.mk (List.replicate (k - s.length) '0') ++ s

/-- Python str() of a float, exact for decimals terminating within 17
digits (every value the engine manipulates in the claims does). -/
def floatStr (q : Rat) : String :=
  let sign := if q.num < 0 then "-" else ""
  let a := ratAbs q
  match (List.range 18).find? (fun k => (ratMul a (ratPow10 k)).den = 1) with
  | some 0 => sign ++ toString a.num ++ ".0"
  | some k =>
      let m := (ratMul a (ratPow10 k)).num.toNat
      sign ++ toString (m / 10 ^ k) ++ "." ++ padZeros (toString (m % 10 ^ k)) k
  | none => sign ++ toString a.num ++ "/" ++ toString a.den

mutual
/-- Python str() of a value. -/
def pyStr : PyVal → String
  | .vint n => toString n
  | .vfloat q => floatStr q
  | .vbool b => if b then "True" else "False"
  | .vstr s => s
  | .vnone => "None"
  | .vlist l => "[" ++ reprJoin l ++ "]"

/-- Comma-join of list elements under Python repr (str() of a list shows
its elements with repr, quoting strings). -/
def reprJoin : List PyVal → String
  | [] => ""
  | [.vstr s] => sQuote ++ s ++ sQuote
  | [v] => pyStr v
  | .vstr s :: rest => sQuote ++ s ++ sQuote ++ ", " ++ reprJoin rest
  | v :: rest => pyStr v ++ ", " ++ reprJoin rest
end

/-- Python `round()` with one argument: round half to even, returning int. -/
def roundHalfEven (q : Rat) : Int :=
  let fl := q.floor
  let frac := ratSub q (intToRat fl)
  if frac < Rat.divInt 1 2 then fl
  else if Rat.divInt 1 2 < frac then fl + 1
  else if fl % 2 = 0 then fl else fl + 1

/-- Python `int()` on a number: truncation toward zero. -/
def truncToInt (q : Rat) : Int :=
  if 0 ≤ q.num then q.floor else q.ceil

/-! The restricted expression language evaluated by settings_eval.py via
eval() over Cura value expressions (ast module nodes the engine meets). -/

inductive BinOp where
  | add | sub | mul | div
deriving Repr, DecidableEq

inductive CmpOp where
  | lt | le | gt | ge | eq | ne
deriving Repr, DecidableEq

inductive PyExpr where
  | const (v : PyVal)
  | name (id : String)
  | binop (op : BinOp) (l r : PyExpr)
  | unaryNeg (e : PyExpr)
  | unaryNot (e : PyExpr)
  | boolAnd (l r : PyExpr)
  | boolOr (l r : PyExpr)
  | compare (op : CmpOp) (l r : PyExpr)
  | cond (c t e : PyExpr)
  | call (f : String) (args : List PyExpr)
  | mathCall (f : String) (args : List PyExpr)
  | malformed (src : String)
deriving Repr, Inhabited

/-- Python builtins allowed in expressions (keys of settings_eval's
_SAFE_BUILTINS dict). -/
def _SAFE_BUILTINS : List String :=
  ["max", "min", "round", "int", "float", "bool", "str", "len", "sum",
   "map", "abs", "any", "all", "True", "False"]

/-! extract_deps: static dependency extraction over the parsed expression,
mirroring the ast.walk loop of settings_eval.extract_deps.  A bare Name
that is not a safe builtin and not "math" is a dependency; the Cura
helper calls contribute their literal string key argument; a parse
failure (malformed) contributes nothing. -/

mutual
def extract_deps : PyExpr → Finset String
  | .const _ => ∅
  | .name id =>
      if id ∈ _SAFE_BUILTINS ∨ id = "math" then ∅ else {id}
  | .binop _ l r => extract_deps l ∪ extract_deps r
  | .unaryNeg e => extract_deps e
  | .unaryNot e => extract_deps e
  | .boolAnd l r => extract_deps l ∪ extract_deps r
  | .boolOr l r => extract_deps l ∪ extract_deps r
  | .compare _ l r => extract_deps l ∪ extract_deps r
  | .cond c t e => extract_deps c ∪ extract_deps t ∪ extract_deps e
  | .call f args =>
      (if f ∈ _SAFE_BUILTINS ∨ f = "math" then ∅ else ({f} : Finset String))
        ∪ helperKeyDeps f args ∪ extractDepsList args
  | .mathCall _ args => extractDepsList args
  | .malformed _ => ∅

/-- Contribution of the Cura helper-call special cases in extract_deps:
resolveOrValue / extruderValues take the key as first string argument,
extruderValue as second, and extruderValue's first argument adds a bare
name without the "math" exclusion. -/
def helperKeyDeps (f : String) (args : List PyExpr) : Finset String :=
  if f = "resolveOrValue" then
    match args with
    | .const (.vstr s) :: _ => {s}
    | _ => ∅
  else if f = "extruderValue" then
    (match args with
     | _ :: .const (.vstr s) :: _ => {s}
     | _ => ∅) ∪
    (match args with
     | .name id :: _ :: _ => if id ∈ _SAFE_BUILTINS then ∅ else {id}
     | _ => ∅)
  else if f = "extruderValues" then
    match args with
    | .const (.vstr s) :: _ => {s}
    | _ => ∅
  else ∅

def extractDepsList : List PyExpr → Finset String
  | [] => ∅
  | e :: rest => extract_deps e ∪ extractDepsList rest
end

/-! Value equality and ordering, mirroring Python == and < over the value
types the engine meets. -/

mutual
def pyEq : PyVal → PyVal → Bool
  | .vlist a, .vlist b => pyEqList a b
  | a, b =>
      match asRat? a, asRat? b with
      | some x, some y => x == y
      | _, _ =>
          match a, b with
          | .vstr s, .vstr t => s == t
          | .vnone, .vnone => true
          | _, _ => false

def pyEqList : List PyVal → List PyVal → Bool
  | [], [] => true
  | a :: as_, b :: bs => pyEq a b && pyEqList as_ bs
  | _, _ => false
end

/-- Python `<` (TypeError on unsupported operand pairs). -/
def pyLt (a b : PyVal) : Except String Bool :=
  match asRat? a, asRat? b with
  | some x, some y => .ok (decide (x < y))
  | _, _ =>
      match a, b with
      | .vstr s, .vstr t => .ok (decide (s < t))
      | _, _ => .error "unorderable types"

/-! Arithmetic, mirroring Python semantics: bool acts as int, int ops
stay int, any float makes the result float, / always returns float. -/

def pyAdd (a b : PyVal) : Except String PyVal :=
  match a, b with
  | .vstr s, .vstr t => .ok (.vstr (s ++ t))
  | .vlist l, .vlist m => .ok (.vlist (l ++ m))
  | _, _ =>
      match asInt? a, asInt? b with
      | some n, some m => .ok (.vint (n + m))
      | _, _ =>
          match asRat? a, asRat? b with
          | some x, some y => .ok (.vfloat (ratAdd x y))
          | _, _ => .error "unsupported operand type(s) for +"

def pySub (a b : PyVal) : Except String PyVal :=
  match asInt? a, asInt? b with
  | some n, some m => .ok (.vint (n - m))
  | _, _ =>
      match asRat? a, asRat? b with
      | some x, some y => .ok (.vfloat (ratSub x y))
      | _, _ => .error "unsupported operand type(s) for -"

def pyMul (a b : PyVal) : Except String PyVal :=
  match asInt? a, asInt? b with
  | some n, some m => .ok (.vint (n * m))
  | _, _ =>
      match asRat? a, asRat? b with
      | some x, some y => .ok (.vfloat (ratMul x y))
      | _, _ => .error "unsupported operand type(s) for *"

def pyDiv (a b : PyVal) : Except String PyVal :=
  match asRat? a, asRat? b with
  | some x, some y =>
      if y.num = 0 then .error "division by zero" else .ok (.vfloat (ratDiv x y))
  | _, _ => .error "unsupported operand type(s) for /"

def applyBinOp : BinOp → PyVal → PyVal → Except String PyVal
  | .add => pyAdd
  | .sub => pySub
  | .mul => pyMul
  | .div => pyDiv

def applyCmpOp (op : CmpOp) (a b : PyVal) : Except String PyVal :=
  match op with
  | .eq => .ok (.vbool (pyEq a b))
  | .ne => .ok (.vbool (!pyEq a b))
  | .lt => (pyLt a b).map .vbool
  | .gt => (pyLt b a).map .vbool
  | .le => (pyLt b a).map (fun r => .vbool (!r))
  | .ge => (pyLt a b).map (fun r => .vbool (!r))

/-- Namespaces of already-resolved values (Python dicts used purely via
get/assignment during evaluation). -/
abbrev NS := String → Option PyVal

def pyNeg (a : PyVal) : Except String PyVal :=
  match asInt? a with
  | some n => .ok (.vint (-n))
  | none =>
      match a with
      | .vfloat q => .ok (.vfloat (ratNeg q))
      | _ => .error "bad operand type for unary -"

/-- Python max()/min() over an argument list, comparing with pyLt and
returning the winning element. -/
def pyFold2 (isMax : Bool) (h : PyVal) (t : List PyVal) : Except String PyVal :=
  t.foldlM
    (fun acc x => do
      let lt ← pyLt acc x
      pure (if lt == isMax then x else acc))
    h

def pyMaxMin (isMax : Bool) (vs : List PyVal) : Except String PyVal :=
  match vs with
  | [.vlist []] => .error "arg is an empty sequence"
  | [.vlist (h :: t)] => pyFold2 isMax h t
  | [_] => .error "object is not iterable"
  | h :: t => pyFold2 isMax h t
  | [] => .error "expected at least 1 argument, got 0"

def pySum (l : List PyVal) : Except String PyVal :=
  l.foldlM (fun acc x => pyAdd acc x) (.vint 0)

/-- Application of one of the whitelisted builtins of _SAFE_BUILTINS to
already-evaluated arguments. -/
def applyBuiltin (f : String) (vs : List PyVal) : Except String PyVal :=
  if f = "max" then pyMaxMin true vs
  else if f = "min" then pyMaxMin false vs
  else if f = "round" then
    match vs with
    | [v] =>
        match asRat? v with
        | some q => .ok (.vint (roundHalfEven q))
        | none => .error "type cannot be rounded"
    | [v, d] =>
        match asRat? v, asInt? d with
        | some q, some n =>
            let scaled := if 0 ≤ n then ratMul q (ratPow10 n.toNat)
              else ratDiv q (ratPow10 (-n).toNat)
            let r := roundHalfEven scaled
            .ok (.vfloat (if 0 ≤ n then ratDiv (intToRat r) (ratPow10 n.toNat)
              else ratMul (intToRat r) (ratPow10 (-n).toNat)))
        | _, _ => .error "type cannot be rounded"
    | _ => .error "round expected 1 or 2 arguments"
  else if f = "int" then
    match vs with
    | [.vstr s] =>
        match parseIntStr s with
        | some n => .ok (.vint n)
        | none => .error ("invalid literal for int() with base 10: " ++ s)
    | [v] =>
        match asRat? v with
        | some q => .ok (.vint (truncToInt q))
        | none => .error "argument must be a number"
    | _ => .error "int expected 1 argument"
  else if f = "float" then
    match vs with
    | [.vstr s] =>
        match parseFloat s with
        | some q => .ok (.vfloat q)
        | none => .error ("could not convert string to float: " ++ s)
    | [v] =>
        match asRat? v with
        | some q => .ok (.vfloat q)
        | none => .error "argument must be a number"
    | _ => .error "float expected 1 argument"
  else if f = "bool" then
    match vs with
    | [v] => .ok (.vbool (truthy v))
    | _ => .error "bool expected 1 argument"
  else if f = "str" then
    match vs with
    | [v] => .ok (.vstr (pyStr v))
    | _ => .error "str expected 1 argument"
  else if f = "len" then
    match vs with
    | [.vstr s] => .ok (.vint s.length)
    | [.vlist l] => .ok (.vint l.length)
    | _ => .error "object has no len()"
  else if f = "sum" then
    match vs with
    | [.vlist l] => pySum l
    | _ => .error "object is not iterable"
  else if f = "abs" then
    match vs with
    | [v] =>
        match asInt? v with
        | some n => .ok (.vint (n.natAbs : Int))
        | none =>
            match v with
            | .vfloat q => .ok (.vfloat (ratAbs q))
            | _ => .error "bad operand type for abs()"
    | _ => .error "abs expected 1 argument"
  else if f = "any" then
    match vs with
    | [.vlist l] => .ok (.vbool (l.any truthy))
    | _ => .error "object is not iterable"
  else if f = "all" then
    match vs with
    | [.vlist l] => .ok (.vbool (l.all truthy))
    | _ => .error "object is not iterable"
  else if f = "map" then .error "map object is not supported"
  else .error ("name " ++ f ++ " is not defined")

/-- Application of the Cura single-extruder helper closures defined inside
evaluate_expressions (they resolve purely by namespace lookup). -/
def applyHelper (ns : NS) (f : String) (vs : List PyVal)
    : Option (Except String PyVal) :=
  if f = "resolveOrValue" then
    match vs with
    | [.vstr s] => some (.ok ((ns s).getD .vnone))
    | [_] => some (.ok .vnone)
    | _ => some (.error "resolveOrValue expected 1 argument")
  else if f = "extruderValue" then
    match vs with
    | [_, .vstr s] => some (.ok ((ns s).getD .vnone))
    | [_, _] => some (.ok .vnone)
    | _ => some (.error "extruderValue expected 2 arguments")
  else if f = "extruderValues" then
    match vs with
    | [.vstr s] =>
        some (.ok (match (ns s).getD .vnone with
          | .vnone => .vlist []
          | v => .vlist [v]))
    | [_] => some (.ok (.vlist []))
    | _ => some (.error "extruderValues expected 1 argument")
  else none

def applyMath (f : String) (vs : List PyVal) : Except String PyVal :=
  if f = "ceil" then
    match vs with
    | [v] =>
        match asRat? v with
        | some q => .ok (.vint q.ceil)
        | none => .error "must be real number"
    | _ => .error "ceil expected 1 argument"
  else if f = "floor" then
    match vs with
    | [v] =>
        match asRat? v with
        | some q => .ok (.vint q.floor)
        | none => .error "must be real number"
    | _ => .error "floor expected 1 argument"
  else .error ("module math has no usable attribute " ++ f)

/-! The expression evaluator: Python eval() restricted to the sandbox
globals built in settings_eval.evaluate_expressions (for value
expressions, helpers is true) and slicer._eval_gcode_expr (helpers is
false).  Name lookup goes through the local namespace first, then the
sandbox globals; an unbound name is a NameError, surfaced as an error
string like every other exception. -/

mutual
def evalExpr (helpers : Bool) (ns : NS) : PyExpr → Except String PyVal
  | .const v => .ok v
  | .name id =>
      match ns id with
      | some v => .ok v
      | none =>
          if id = "True" then .ok (.vbool true)
          else if id = "False" then .ok (.vbool false)
          else if id ∈ _SAFE_BUILTINS ∨ id = "math" ∨
              (helpers ∧ id ∈ ["resolveOrValue", "extruderValue", "extruderValues"]) then
            .error ("function object " ++ id ++ " is not a value")
          else .error ("name " ++ id ++ " is not defined")
  | .binop op l r => do
      let a ← evalExpr helpers ns l
      let b ← evalExpr helpers ns r
      applyBinOp op a b
  | .unaryNeg e => do pyNeg (← evalExpr helpers ns e)
  | .unaryNot e => do
      let v ← evalExpr helpers ns e
      pure (.vbool (!truthy v))
  | .boolAnd l r => do
      let a ← evalExpr helpers ns l
      if truthy a then evalExpr helpers ns r else pure a
  | .boolOr l r => do
      let a ← evalExpr helpers ns l
      if truthy a then pure a else evalExpr helpers ns r
  | .compare op l r => do
      let a ← evalExpr helpers ns l
      let b ← evalExpr helpers ns r
      applyCmpOp op a b
  | .cond c t e => do
      let cv ← evalExpr helpers ns c
      if truthy cv then evalExpr helpers ns t else evalExpr helpers ns e
  | .call f args =>
      if (ns f).isSome then .error ("object " ++ f ++ " is not callable")
      else do
        let vs ← evalArgs helpers ns args
        match (if helpers then applyHelper ns f vs else none) with
        | some r => r
        | none => applyBuiltin f vs
  | .mathCall f args => do
      let vs ← evalArgs helpers ns args
      applyMath f vs
  | .malformed _ => .error "invalid syntax"

def evalArgs (helpers : Bool) (ns : NS) : List PyExpr → Except String (List PyVal)
  | [] => .ok []
  | e :: rest => do
      let v ← evalExpr helpers ns e
      let vs ← evalArgs helpers ns rest
      pure (v :: vs)
end

/-! The settings registry (settings_registry.py, current revision used by
settings_eval.py and slicer.py: a flat table of SettingDefinition rows
with an optional value_expression). -/

structure SettingDefinition where
  key : String
  label : String := ""
  description : String := ""
  setting_type : String := "float"
  default_value : PyVal := .vnone
  unit : String := ""
  minimum_value : Option Rat := none
  maximum_value : Option Rat := none
  minimum_value_warning : Option Rat := none
  maximum_value_warning : Option Rat := none
  options : Dict String := []
  category : String := ""
  value_expression : Option PyExpr := none

structure SettingsRegistry where
  settings : Dict SettingDefinition

def SettingsRegistry.get (r : SettingsRegistry) (key : String)
    : Option SettingDefinition :=
  dget r.settings key

def SettingsRegistry.all_settings (r : SettingsRegistry) : Dict SettingDefinition :=
  r.settings

/-- Python `registry.keys()` returns `set(self.settings.keys())`. -/
def SettingsRegistry.keySet (r : SettingsRegistry) : Finset String :=
  (dkeys r.settings).toFinset

/-- Coerce an eval result to the expected setting type
(settings_eval._coerce); conversion failures fall through and return the
value unchanged, and unrecognized setting types (e.g. enum) do too. -/
def pyFloatOf : PyVal → Option Rat
  | .vstr s => parseFloat s
  | v => asRat? v

def _coerce (value : PyVal) (setting_type : String) : PyVal :=
  if setting_type = "int" then
    match pyFloatOf value with
    | some q => .vint (roundHalfEven q)
    | none => value
  else if setting_type = "float" then
    match pyFloatOf value with
    | some q => .vfloat q
    | none => value
  else if setting_type = "bool" then .vbool (truthy value)
  else if setting_type = "str" then .vstr (pyStr value)
  else value

/-- Map each setting with a value_expression to its dependency keys that
are themselves setting keys (settings_eval.build_dep_graph). -/
def build_dep_graph (r : SettingsRegistry) : Dict (Finset String) :=
  r.settings.foldl
    (fun g p =>
      match p.2.value_expression with
      | none => g
      | some e => dinsert g p.1 (extract_deps e ∩ r.keySet))
    []

/-! Kahn's algorithm (settings_eval.topological_order).  The queue loop is
given fuel one larger than the node count, which is proved sufficient for
the queue to drain; any node never reached (a cycle member) is appended
afterwards in graph-iteration order, exactly as the source does. -/

def graphKeys (g : Dict (Finset String)) : Finset String :=
  (dkeys g).toFinset

/-- Initial in-degree: dependencies restricted to graph members. -/
def initDeg (g : Dict (Finset String)) : String → Int :=
  fun k => ((((dget g k).getD ∅) ∩ graphKeys g).card : Int)

/-- Adjacency: dep -> dependents, in graph-iteration order. -/
def adjList (g : Dict (Finset String)) (n : String) : List String :=
  (g.filter (fun p => n ∈ p.2)).map Prod.fst

def initQueue (g : Dict (Finset String)) : List String :=
  (dkeys g).filter (fun k => initDeg g k = 0)

/-- Decrement the in-degree of every dependent of a popped node,
enqueueing any dependent that reaches zero. -/
def processAdj : List String → List String → (String → Int)
    → List String × (String → Int)
  | [], q, deg => (q, deg)
  | t :: ts, q, deg =>
      let d := deg t - 1
      processAdj ts (if d = 0 then q ++ [t] else q)
        (fun x => if x = t then d else deg x)

def kahnLoop (g : Dict (Finset String))
    : Nat → List String → List String → (String → Int)
    → List String × List String × (String → Int)
  | 0, queue, order, deg => (order, queue, deg)
  | _ + 1, [], order, deg => (order, [], deg)
  | fuel + 1, node :: rest, order, deg =>
      let step := processAdj (adjList g node) rest deg
      kahnLoop g fuel step.1 (order ++ [node]) step.2

def topological_order (g : Dict (Finset String)) : List String :=
  let result := kahnLoop g (g.length + 1) (initQueue g) [] (initDeg g)
  (dkeys g).foldl (fun acc k => if k ∈ acc then acc else acc ++ [k]) result.1

/-- The dependencies of a node that are themselves graph members — the
source's `deps & set(dep_graph.keys())`, the quantity in_degree counts. -/
def memberDeps (g : Dict (Finset String)) (k : String) : Finset String :=
  ((dget g k).getD ∅) ∩ graphKeys g

/-- Acyclicity of the member-edge relation: the relation "dep is a
graph-member dependency of key" admits no infinite descending chain
(equivalently, for this finite graph, no directed cycle). -/
def Acyclic (g : Dict (Finset String)) : Prop :=
  WellFounded (fun dep key => dep ∈ memberDeps g key)

/-! Expression evaluation over the whole table
(settings_eval.evaluate_expressions). -/

structure EvalResult where
  values : Dict PyVal
  errors : Dict String
deriving Repr

/-- Seed the namespace with every setting's schema default. -/
def seedNamespace (reg : SettingsRegistry) : NS :=
  reg.settings.foldl
    (fun ns p => fun k => if k = p.1 then some p.2.default_value else ns k)
    (fun _ => none)

/-- Overlay a string map onto the namespace, coercing each entry to its
setting's declared type; entries without a definition are ignored. -/
def overlayCoerced (reg : SettingsRegistry) (m : Dict String) (ns : NS) : NS :=
  m.foldl
    (fun ns p =>
      match reg.get p.1 with
      | some defn =>
          fun k => if k = p.1 then some (_coerce (.vstr p.2) defn.setting_type) else ns k
      | none => ns)
    ns

/-- Keys of the pinned map that name a registered setting. -/
def pinnedKeysOf (reg : SettingsRegistry) (pinned : Dict String) : Finset String :=
  ((pinned.filter (fun p => (reg.get p.1).isSome)).map Prod.fst).toFinset

def evalInitNS (reg : SettingsRegistry) (pinned config : Dict String) : NS :=
  overlayCoerced reg pinned (overlayCoerced reg config (seedNamespace reg))

/-- One iteration of the evaluation loop: pinned keys are skipped, a
successful evaluation writes the coerced value into the namespace, and an
exception is recorded as that key's error string. -/
def evalStep (reg : SettingsRegistry) (pinnedKeys : Finset String)
    (acc : NS × Dict String) (key : String) : NS × Dict String :=
  if key ∈ pinnedKeys then acc
  else
    match reg.get key with
    | none => acc
    | some defn =>
        match defn.value_expression with
        | none => acc
        | some e =>
            match evalExpr true acc.1 e with
            | .ok raw =>
                (fun k => if k = key then some (_coerce raw defn.setting_type) else acc.1 k,
                 acc.2)
            | .error msg => (acc.1, dinsert acc.2 key msg)

def evalOrder (reg : SettingsRegistry) : List String :=
  topological_order (build_dep_graph reg)

def evalFold (reg : SettingsRegistry) (pinned config : Dict String)
    : NS × Dict String :=
  (evalOrder reg).foldl (evalStep reg (pinnedKeysOf reg pinned))
    (evalInitNS reg pinned config, [])

def evaluate_expressions (reg : SettingsRegistry) (pinned_values config_defaults : Dict String)
    : EvalResult :=
  let fold := evalFold reg pinned_values config_defaults
  let pinnedKeys := pinnedKeysOf reg pinned_values
  let values := (build_dep_graph reg).foldl
    (fun vals p =>
      if p.1 ∈ pinnedKeys ∨ (dget fold.2 p.1).isSome then vals
      else dinsert vals p.1 ((fold.1 p.1).getD .vnone))
    []
  ⟨values, fold.2⟩

/-! Gcode template expansion (slicer.py).  The source evaluates each
brace-delimited token with Python eval over the sandbox globals; here the
token text is parsed by a small recursive-descent parser for the
arithmetic/call fragment of that expression language (tokens outside the
fragment fail to parse, which surfaces as the same leave-verbatim
behavior as an eval exception). -/

def GCODE_SETTINGS : List String := ["machine_start_gcode", "machine_end_gcode"]

def SCALE_KEYS : List String := ["scale", "scale_x", "scale_y", "scale_z"]

/-- Merge default settings with user overrides (slicer.merge_settings). -/
def merge_settings (defaults overrides : Dict String) : Dict String :=
  dupdate defaults overrides

/-- Try to parse a string as int or float, returning the original on
failure (slicer._try_number). -/
def _try_number (value : String) : PyVal :=
  match parseFloat value with
  | some f => if f.den = 1 then .vint f.num else .vfloat f
  | none => .vstr value

inductive Tok where
  | tid (s : String)
  | tnum (v : PyVal)
  | tsym (c : Char)
deriving Repr

def isIdentStart (c : Char) : Bool :=
  ('a' ≤ c && c ≤ 'z') || ('A' ≤ c && c ≤ 'Z') || c = '_'

def isIdentChar (c : Char) : Bool :=
  isIdentStart c || isDigitChar c

def lexTokens : Nat → List Char → Option (List Tok)
  | 0, _ => none
  | _, [] => some []
  | fuel + 1, c :: cs =>
      if c = ' ' ∨ c = '\t' ∨ c = '\n' ∨ c = '\r' then lexTokens fuel cs
      else if isIdentStart c then
        let ident := c :: cs.takeWhile isIdentChar
        (lexTokens fuel (cs.dropWhile isIdentChar)).map (Tok.tid (String.mk ident) :: ·)
      else if isDigitChar c then
        let intPart := c :: cs.takeWhile isDigitChar
        let rest := cs.dropWhile isDigitChar
        match rest with
        | '.' :: r =>
            let frac := r.takeWhile isDigitChar
            let v : Rat := ratAdd (intToRat (digitsToNat intPart))
              (Rat.divInt (digitsToNat frac) ((10 : Int) ^ frac.length))
            (lexTokens fuel (r.dropWhile isDigitChar)).map (Tok.tnum (.vfloat v) :: ·)
        | _ =>
            (lexTokens fuel rest).map (Tok.tnum (.vint (digitsToNat intPart)) :: ·)
      else if c = '+' ∨ c = '-' ∨ c = '*' ∨ c = '/' ∨ c = '(' ∨ c = ')' ∨
          c = ',' ∨ c = '.' then
        (lexTokens fuel cs).map (Tok.tsym c :: ·)
      else none

mutual
def parseAtom : Nat → List Tok → Option (PyExpr × List Tok)
  | 0, _ => none
  | fuel + 1, ts =>
      match ts with
      | .tnum v :: rest => some (.const v, rest)
      | .tid "math" :: .tsym '.' :: .tid f :: .tsym '(' :: rest =>
          match parseArgs fuel rest with
          | some (args, rest2) => some (.mathCall f args, rest2)
          | none => none
      | .tid id :: .tsym '(' :: rest =>
          match parseArgs fuel rest with
          | some (args, rest2) => some (.call id args, rest2)
          | none => none
      | .tid id :: rest => some (.name id, rest)
      | .tsym '(' :: rest =>
          match parseSum fuel rest with
          | some (e, .tsym ')' :: rest2) => some (e, rest2)
          | _ => none
      | _ => none

def parseArgs : Nat → List Tok → Option (List PyExpr × List Tok)
  | 0, _ => none
  | fuel + 1, ts =>
      match ts with
      | .tsym ')' :: rest => some ([], rest)
      | _ =>
          match parseSum fuel ts with
          | some (e, .tsym ',' :: rest2) =>
              match parseArgs fuel rest2 with
              | some (es, rest3) => some (e :: es, rest3)
              | none => none
          | some (e, .tsym ')' :: rest2) => some ([e], rest2)
          | _ => none

def parseFactor : Nat → List Tok → Option (PyExpr × List Tok)
  | 0, _ => none
  | fuel + 1, ts =>
      match ts with
      | .tsym '-' :: rest =>
          match parseFactor fuel rest with
          | some (e, rest2) => some (.unaryNeg e, rest2)
          | none => none
      | _ => parseAtom fuel ts

def parseTerm : Nat → List Tok → Option (PyExpr × List Tok)
  | 0, _ => none
  | fuel + 1, ts =>
      match parseFactor fuel ts with
      | some (e, rest) => parseTermRest fuel e rest
      | none => none

def parseTermRest : Nat → PyExpr → List Tok → Option (PyExpr × List Tok)
  | 0, _, _ => none
  | fuel + 1, e, ts =>
      match ts with
      | .tsym '*' :: rest =>
          match parseFactor fuel rest with
          | some (r, rest2) => parseTermRest fuel (.binop .mul e r) rest2
          | none => none
      | .tsym '/' :: rest =>
          match parseFactor fuel rest with
          | some (r, rest2) => parseTermRest fuel (.binop .div e r) rest2
          | none => none
      | _ => some (e, ts)

def parseSum : Nat → List Tok → Option (PyExpr × List Tok)
  | 0, _ => none
  | fuel + 1, ts =>
      match parseTerm fuel ts with
      | some (e, rest) => parseSumRest fuel e rest
      | none => none

def parseSumRest : Nat → PyExpr → List Tok → Option (PyExpr × List Tok)
  | 0, _, _ => none
  | fuel + 1, e, ts =>
      match ts with
      | .tsym '+' :: rest =>
          match parseTerm fuel rest with
          | some (r, rest2) => parseSumRest fuel (.binop .add e r) rest2
          | none => none
      | .tsym '-' :: rest =>
          match parseTerm fuel rest with
          | some (r, rest2) => parseSumRest fuel (.binop .sub e r) rest2
          | none => none
      | _ => some (e, ts)
end

/-- Parse one gcode token's text as an expression; None plays the role of
a SyntaxError from eval. -/
def parseGcodeExpr (s : String) : Option PyExpr :=
  match lexTokens (s.length + 1) s.data with
  | none => none
  | some ts =>
      match parseSum (4 * ts.length + 4) ts with
      | some (e, []) => some e
      | _ => none

/-- Evaluate a single gcode brace expression and return its string result
(slicer._eval_gcode_expr; the sandbox globals contain the safe builtins
and math but not the Cura helpers). -/
def _eval_gcode_expr (expr : String) (ns : NS) : Except String String :=
  match parseGcodeExpr expr with
  | none => .error "invalid syntax"
  | some e => (evalExpr false ns e).map pyStr

/-- Character-level equivalent of the re.sub scan over brace tokens: a
brace with a nonempty body closed by the next closing brace is replaced
by its evaluation (left verbatim on failure), everything else is copied. -/
def expandChars (ns : NS) : Nat → List Char → List Char
  | 0, cs => cs
  | _ + 1, [] => []
  | fuel + 1, '{' :: rest =>
      let content := rest.takeWhile (fun c => c ≠ '}')
      if content.length < rest.length ∧ content ≠ [] then
        let after := rest.drop (content.length + 1)
        match _eval_gcode_expr (String.mk content) ns with
        | .ok s => s.data ++ expandChars ns fuel after
        | .error _ => '{' :: (content ++ '}' :: expandChars ns fuel after)
      else '{' :: expandChars ns fuel rest
  | fuel + 1, c :: rest => c :: expandChars ns fuel rest

/-- Evaluate brace expressions in gcode using setting values as the
namespace (slicer.expand_gcode_tokens). -/
def expand_gcode_tokens (gcode : String) (settings : Dict String) : String :=
  let ns : NS := fun k => (dget settings k).map _try_number
  String.mk (expandChars ns (gcode.length + 1) gcode.data)

/-! The resolution pipeline (slicer.resolve_settings), staged exactly as
the source: computed values stringified, pinned values layered on top,
gcode defaults pulled in, tokens expanded, defaults pruned, scale keys
stripped. -/

def strValues (vals : Dict PyVal) : Dict String :=
  vals.foldl (fun d p => dinsert d p.1 (pyStr p.2)) []

/-- Gcode settings must always be present; pull from the registry default
if not already resolved. -/
def gcodeFill (reg : SettingsRegistry) (resolved : Dict String) : Dict String :=
  GCODE_SETTINGS.foldl
    (fun res key =>
      if (dget res key).isSome then res
      else
        match reg.get key with
        | some defn =>
            match defn.default_value with
            | .vnone => res
            | v => dinsert res key (pyStr v)
        | none => res)
    resolved

/-- Token-expansion lookup: registry defaults as base, resolved values on
top. -/
def tokenLookup (reg : SettingsRegistry) (resolved : Dict String) : Dict String :=
  dupdate
    (reg.settings.foldl
      (fun d p =>
        match p.2.default_value with
        | .vnone => d
        | v => dinsert d p.1 (pyStr v))
      [])
    resolved

def expandGcodeFields (reg : SettingsRegistry) (resolved : Dict String) : Dict String :=
  let lookup := tokenLookup reg resolved
  GCODE_SETTINGS.foldl
    (fun res key =>
      match dget res key with
      | some v => dinsert res key (expand_gcode_tokens v lookup)
      | none => res)
    resolved

/-- The emitted table just before default pruning. -/
def resolvedPrePrune (reg : SettingsRegistry) (config_defaults overrides : Dict String)
    : Dict String :=
  let pinned := merge_settings config_defaults overrides
  let result := evaluate_expressions reg pinned config_defaults
  expandGcodeFields reg (gcodeFill reg (dupdate (strValues result.values) pinned))

/-- Drop values that match the definition default, keeping gcode fields,
user overrides and forced keys. -/
def pruneDefaults (reg : SettingsRegistry) (overrides : Dict String)
    (forced_keys : Finset String) (resolved : Dict String) : Dict String :=
  resolved.filter
    (fun p =>
      if GCODE_SETTINGS.contains p.1 then true
      else
        match reg.get p.1 with
        | some defn =>
            !(pyStr defn.default_value == p.2 && !dmem overrides p.1 &&
              !(decide (p.1 ∈ forced_keys)))
        | none => true)

/-- Evaluate all expressions and return a flat string dict for CuraEngine
(slicer.resolve_settings). -/
def resolve_settings (reg : SettingsRegistry) (config_defaults overrides : Dict String)
    (forced_keys : Finset String) : Dict String :=
  let resolved := pruneDefaults reg overrides forced_keys
    (resolvedPrePrune reg config_defaults overrides)
  SCALE_KEYS.foldl (fun res k => derase res k) resolved

/-! The bounds and type validator (settings_validate.py). -/

structure ValidationResult where
  ok : Bool
  coerced_value : String
  error : String := ""
  warning : String := ""
deriving Repr, DecidableEq

def _BOOL_TRUE : List String := ["true", "yes", "1", "on"]
def _BOOL_FALSE : List String := ["false", "no", "0", "off"]

def belowOpt (q : Rat) : Option Rat → Bool
  | some m => decide (q < m)
  | none => false

def aboveOpt (q : Rat) : Option Rat → Bool
  | some m => decide (m < q)
  | none => false

/-- Render an optional bound the way the f-string interpolates the stored
float (only reached when the bound is present). -/
def optBoundStr : Option Rat → String
  | some m => floatStr m
  | none => ""

/-- Unit suffix used in every bounds message (f" {unit}" when a unit is
declared). -/
def unitSuffix (defn : SettingDefinition) : String :=
  if defn.unit = "" then "" else " " ++ defn.unit

/-- Soft-bound warning text: below-warning wins over above-warning,
empty when the value is inside both soft bounds. -/
def boundsWarning (defn : SettingDefinition) (val : PyVal) : String :=
  if belowOpt ((asRat? val).getD 0) defn.minimum_value_warning then
    "Value " ++ pyStr val ++ unitSuffix defn ++ " is below recommended minimum ("
      ++ optBoundStr defn.minimum_value_warning ++ unitSuffix defn ++ ")"
  else if aboveOpt ((asRat? val).getD 0) defn.maximum_value_warning then
    "Value " ++ pyStr val ++ unitSuffix defn ++ " is above recommended maximum ("
      ++ optBoundStr defn.maximum_value_warning ++ unitSuffix defn ++ ")"
  else ""

def _check_bounds (defn : SettingDefinition) (val : PyVal) (coerced : String)
    : ValidationResult :=
  if belowOpt ((asRat? val).getD 0) defn.minimum_value then
    { ok := false, coerced_value := coerced,
      error := "Value " ++ pyStr val ++ unitSuffix defn ++ " is below minimum ("
        ++ optBoundStr defn.minimum_value ++ unitSuffix defn ++ ")" }
  else if aboveOpt ((asRat? val).getD 0) defn.maximum_value then
    { ok := false, coerced_value := coerced,
      error := "Value " ++ pyStr val ++ unitSuffix defn ++ " is above maximum ("
        ++ optBoundStr defn.maximum_value ++ unitSuffix defn ++ ")" }
  else
    { ok := true, coerced_value := coerced, warning := boundsWarning defn val }

def _validate_float (defn : SettingDefinition) (raw : String) : ValidationResult :=
  match parseFloat raw with
  | some val => _check_bounds defn (.vfloat val) raw
  | none =>
      { ok := false, coerced_value := raw,
        error := "Expected a number, got " ++ sQuote ++ raw ++ sQuote }

def _validate_int (defn : SettingDefinition) (raw : String) : ValidationResult :=
  match parseIntStr raw with
  | some n => _check_bounds defn (.vint n) (toString n)
  | none =>
      match parseFloat raw with
      | some f =>
          if f.den = 1 then _check_bounds defn (.vint f.num) (toString f.num)
          else
            { ok := false, coerced_value := raw,
              error := "Expected an integer, got " ++ sQuote ++ raw ++ sQuote }
      | none =>
          { ok := false, coerced_value := raw,
            error := "Expected an integer, got " ++ sQuote ++ raw ++ sQuote }

def charLower (c : Char) : Char :=
  if 'A' ≤ c && c ≤ 'Z' then Char.ofNat (c.toNat + 32) else c

def strLower (s : String) : String := String.mk (s.data.map charLower)

/-- Python raw.lower().strip() as used by the bool validator. -/
def lowerStrip (raw : String) : String := String.mk (stripChars (strLower raw).data)

def _validate_bool (_defn : SettingDefinition) (raw : String) : ValidationResult :=
  if _BOOL_TRUE.contains (lowerStrip raw) then
    { ok := true, coerced_value := "true" }
  else if _BOOL_FALSE.contains (lowerStrip raw) then
    { ok := true, coerced_value := "false" }
  else
    { ok := false, coerced_value := raw,
      error := "Expected true/false, got " ++ sQuote ++ raw ++ sQuote }

def _validate_enum (defn : SettingDefinition) (raw : String) : ValidationResult :=
  if dmem defn.options raw then { ok := true, coerced_value := raw }
  else
    match defn.options.find? (fun p => strLower p.1 == strLower raw) with
    | some p => { ok := true, coerced_value := p.1 }
    | none =>
        match defn.options.find? (fun p => strLower p.2 == strLower raw) with
        | some p => { ok := true, coerced_value := p.1 }
        | none =>
            { ok := false, coerced_value := raw,
              error := "Invalid option " ++ sQuote ++ raw ++ sQuote
                ++ ". Valid options: " ++ ", ".intercalate (dkeys defn.options) }

def _validate_str (_defn : SettingDefinition) (raw : String) : ValidationResult :=
  { ok := true, coerced_value := raw }

/-- Dispatch by declared type; unknown types fall back to the string
validator (settings_validate.validate). -/
def validate (defn : SettingDefinition) (raw : String) : ValidationResult :=
  if defn.setting_type = "float" then _validate_float defn raw
  else if defn.setting_type = "int" then _validate_int defn raw
  else if defn.setting_type = "bool" then _validate_bool defn raw
  else if defn.setting_type = "enum" then _validate_enum defn raw
  else _validate_str defn raw

/-! The settings_registry.py revision actually checked into src/: its
SettingDefinition dataclass (lines 6-19) has no value_expression field
and its _apply_overrides (lines 114-129) rewrites only default_value and
the four bound fields, ignoring a "value" entry in an override. -/

namespace SrcRegistry

structure SettingDefinition where
  key : String
  label : String := ""
  description : String := ""
  setting_type : String := "float"
  default_value : PyVal := .vnone
  unit : String := ""
  minimum_value : Option Rat := none
  maximum_value : Option Rat := none
  minimum_value_warning : Option Rat := none
  maximum_value_warning : Option Rat := none
  options : Dict String := []
  category : String := ""
deriving Repr

/-- Parse a numeric bound, returning None for expressions or missing
values (settings_registry._try_parse_number). -/
def _try_parse_number (value : PyVal) : Option Rat :=
  match value with
  | .vnone => none
  | .vint n => some (intToRat n)
  | .vbool b => some (intToRat (if b then 1 else 0))
  | .vfloat q => some q
  | .vstr s => parseFloat s
  | .vlist _ => none

/-- One override object from a child definition document: each field is
present when the corresponding JSON key is present.  The "value" field
(the computed-value formula) is carried here because child documents do
supply it, but this revision's _apply_overrides never reads it. -/
structure OverrideEntry where
  default_value : Option PyVal := none
  minimum_value : Option PyVal := none
  maximum_value : Option PyVal := none
  minimum_value_warning : Option PyVal := none
  maximum_value_warning : Option PyVal := none
  value : Option String := none

def applyEntry (defn : SettingDefinition) (o : OverrideEntry) : SettingDefinition :=
  let defn :=
    match o.default_value with
    | some v => { defn with default_value := v }
    | none => defn
  let defn :=
    match o.minimum_value with
    | some v => { defn with minimum_value := _try_parse_number v }
    | none => defn
  let defn :=
    match o.maximum_value with
    | some v => { defn with maximum_value := _try_parse_number v }
    | none => defn
  let defn :=
    match o.minimum_value_warning with
    | some v => { defn with minimum_value_warning := _try_parse_number v }
    | none => defn
  match o.maximum_value_warning with
  | some v => { defn with maximum_value_warning := _try_parse_number v }
  | none => defn

/-- Apply overrides from an inheriting definition
(settings_registry.SettingsRegistry._apply_overrides): unknown keys are
skipped, known keys have their definition fields rewritten in place. -/
def _apply_overrides (settings : Dict SettingDefinition)
    (overrides : Dict OverrideEntry) : Dict SettingDefinition :=
  overrides.foldl
    (fun s p =>
      match dget s p.1 with
      | none => s
      | some defn => dinsert s p.1 (applyEntry defn p.2))
    settings

end SrcRegistry

/-! Concrete instances used by the claims' examples, taken from the
spec's §8 test vectors and the repository's own fixtures. -/

/-- The spec's dependency chain: a (default 5), b = a+1, c = b*2. -/
def regABC : SettingsRegistry := ⟨[
  ("a", { key := "a", setting_type := "float", default_value := .vfloat 5 }),
  ("b", { key := "b", setting_type := "float", default_value := .vfloat 0,
          value_expression := some (.binop .add (.name "a") (.const (.vint 1))) }),
  ("c", { key := "c", setting_type := "float", default_value := .vfloat 0,
          value_expression := some (.binop .mul (.name "b") (.const (.vint 2))) })]⟩

/-- A failing expression (1/0) next to a healthy sibling (a+1). -/
def regBad : SettingsRegistry := ⟨[
  ("bad", { key := "bad", setting_type := "float", default_value := .vfloat 0,
            value_expression := some (.binop .div (.const (.vint 1)) (.const (.vint 0))) }),
  ("a", { key := "a", setting_type := "float", default_value := .vfloat 3 }),
  ("good", { key := "good", setting_type := "float", default_value := .vfloat 0,
             value_expression := some (.binop .add (.name "a") (.const (.vint 1))) })]⟩

/-- roofing_layer_count as the repository configures it: registry default
0, config default "0", forced, never overridden. -/
def regRoofing : SettingsRegistry := ⟨[
  ("roofing_layer_count",
    { key := "roofing_layer_count", setting_type := "int", default_value := .vint 0 })]⟩

def cfgRoofing : Dict String := [("roofing_layer_count", "0")]

/-- A non-forced attribute whose computed value equals its own default. -/
def regSelfDefault : SettingsRegistry := ⟨[
  ("a", { key := "a", setting_type := "float", default_value := .vfloat 1 }),
  ("d", { key := "d", setting_type := "float", default_value := .vfloat 2,
          value_expression := some (.binop .mul (.name "a") (.const (.vint 2))) })]⟩

/-- A setting whose expression (1/0) references no table keys at all. -/
def regNoDeps : SettingsRegistry := ⟨[
  ("k", { key := "k", setting_type := "float", default_value := .vfloat 0,
          value_expression := some (.binop .div (.const (.vint 1)) (.const (.vint 0))) })]⟩

/-- A registry without machine_start_gcode, plus an unknown-key override
whose value carries a brace token referencing setting a. -/
def regToken : SettingsRegistry := ⟨[
  ("a", { key := "a", setting_type := "float", default_value := .vint 7 })]⟩

def ovToken : Dict String := [("machine_start_gcode", "{a}")]

/-- The spec's bounds example: minimum 0.001 and maximum 4 on a float. -/
def defnBounds : SettingDefinition :=
  { key := "t", setting_type := "float",
    minimum_value := some (Rat.divInt 1 1000), maximum_value := some (Rat.divInt 4 1) }

/-- An int attribute without bounds (for the "3.0" normalization). -/
def defnInt : SettingDefinition := { key := "i", setting_type := "int" }

/-- A float attribute with a warning-only lower bound of 0.04. -/
def defnWarn : SettingDefinition :=
  { key := "w", setting_type := "float",
    minimum_value := some (Rat.divInt 1 1000),
    minimum_value_warning := some (Rat.divInt 1 25) }

/-- The repository's own test fixture for _apply_overrides with a value
override (test_settings.py::test_apply_overrides_with_value). -/
def srcDefnC5 : SrcRegistry.SettingDefinition :=
  { key := "test_key", label := "Test", description := "",
    setting_type := "float", default_value := .vfloat 1 }

def srcOvC5 : Dict SrcRegistry.OverrideEntry :=
  [("test_key", { value := some "layer_height * 2" })]

/-- The 2-cycle dependency graph of the spec's scheduler example. -/
def gCycle : Dict (Finset String) := [("x", {"y"}), ("y", {"x"})]

/-- A 3-chain dependency graph used to witness the scheduler claims. -/
def gChain : Dict (Finset String) := [("c", {"b"}), ("b", {"a"}), ("a", ∅)]

/-- Python dicts cannot contain a key twice; inputs built as literal
dicts are assumed well-formed through this predicate. -/
def nodupKeys {α : Type} (d : Dict α) : Prop := (dkeys d).Nodup

instance {α : Type} (d : Dict α) : Decidable (nodupKeys d) :=
  inferInstanceAs (Decidable ((dkeys d).Nodup))

/-! Lemmas about the dictionary model. -/

theorem oOr_some {α : Type} (a : α) (b : Option α) : oOr (some a) b = some a := rfl

theorem oOr_none {α : Type} (b : Option α) : oOr none b = b := rfl

theorem oOr_none_right {α : Type} (a : Option α) : oOr a none = a := by
  cases a <;> rfl

theorem dget_cons {α : Type} (a : String) (b : α) (t : Dict α) (key : String) :
    dget ((a, b) :: t) key = if a = key then some b else dget t key := rfl

theorem dkeys_cons {α : Type} (a : String) (b : α) (t : Dict α) :
    dkeys ((a, b) :: t) = a :: dkeys t := rfl

theorem dget_dinsert {α : Type} (d : Dict α) (k : String) (v : α) (key : String) :
    dget (dinsert d k v) key = if key = k then some v else dget d key := by
  induction d with
  | nil =>
      show dget [(k, v)] key = _
      rw [dget_cons]
      by_cases h : k = key
      · rw [if_pos h, if_pos h.symm]
      · rw [if_neg h, if_neg (fun hh => h hh.symm)]
  | cons p t ih =>
      obtain ⟨a, b⟩ := p
      show dget (if a = k then (a, v) :: t else (a, b) :: dinsert t k v) key = _
      by_cases hak : a = k
      · subst hak
        rw [if_pos rfl, dget_cons, dget_cons]
        by_cases h : a = key
        · rw [if_pos h, if_pos h.symm]
        · rw [if_neg h, if_neg h, if_neg (fun hh : key = a => h hh.symm)]
      · rw [if_neg hak, dget_cons, dget_cons, ih]
        by_cases h : a = key
        · subst h
          rw [if_pos rfl, if_neg hak, if_pos rfl]
        · rw [if_neg h]
          by_cases h2 : key = k
          · rw [if_pos h2, if_pos h2]
          · rw [if_neg h2, if_neg h2, if_neg h]

theorem dget_eq_none_iff {α : Type} (d : Dict α) (key : String) :
    dget d key = none ↔ key ∉ dkeys d := by
  induction d with
  | nil => simp [dget, dkeys]
  | cons p t ih =>
      obtain ⟨a, b⟩ := p
      rw [dget_cons, dkeys_cons]
      by_cases h : a = key
      · subst h; simp
      · rw [if_neg h, ih]
        constructor
        · intro hn hmem
          rcases List.mem_cons.mp hmem with h1 | h1
          · exact h h1.symm
          · exact hn h1
        · intro hn h1
          exact hn (List.mem_cons_of_mem _ h1)

theorem dget_isSome_iff {α : Type} (d : Dict α) (key : String) :
    (dget d key).isSome ↔ key ∈ dkeys d := by
  constructor
  · intro h
    by_contra hn
    rw [(dget_eq_none_iff d key).mpr hn] at h
    simp at h
  · intro h
    cases hd : dget d key with
    | none => exact absurd ((dget_eq_none_iff d key).mp hd) (by simp [h])
    | some v => simp

theorem dget_of_mem_pair {α : Type} (d : Dict α) (key : String) (v : α)
    (h : (key, v) ∈ d) : (dget d key).isSome := by
  rw [dget_isSome_iff]
  exact List.mem_map.mpr ⟨(key, v), h, rfl⟩

theorem mem_pair_of_dget {α : Type} (d : Dict α) (key : String) (v : α)
    (h : dget d key = some v) : (key, v) ∈ d := by
  induction d with
  | nil => simp [dget] at h
  | cons p t ih =>
      obtain ⟨a, b⟩ := p
      by_cases hak : a = key
      · subst hak
        rw [dget_cons, if_pos rfl] at h
        simp [← Option.some_inj.mp h]
      · rw [dget_cons, if_neg hak] at h
        exact List.mem_cons_of_mem _ (ih h)

theorem dget_of_nodup_mem {α : Type} (d : Dict α) (h : nodupKeys d) (key : String) (v : α)
    (hm : (key, v) ∈ d) : dget d key = some v := by
  induction d with
  | nil => simp at hm
  | cons p t ih =>
      obtain ⟨a, b⟩ := p
      have hnd : nodupKeys t := (List.nodup_cons.mp h).2
      have hna : a ∉ dkeys t := (List.nodup_cons.mp h).1
      rcases List.mem_cons.mp hm with heq | hmem
      · obtain ⟨h1, h2⟩ := Prod.mk.injEq .. ▸ heq
        rw [dget_cons, h1, h2, if_pos rfl]
      · have hkt : key ∈ dkeys t := List.mem_map.mpr ⟨(key, v), hmem, rfl⟩
        have : a ≠ key := fun hh => hna (hh ▸ hkt)
        rw [dget_cons, if_neg this]
        exact ih hnd hmem

theorem dget_dupdate {α : Type} (d other : Dict α) (h : nodupKeys other) (key : String) :
    dget (dupdate d other) key = oOr (dget other key) (dget d key) := by
  induction other generalizing d with
  | nil => simp [dupdate, dget, oOr_none]
  | cons p t ih =>
      obtain ⟨a, b⟩ := p
      have hnd : nodupKeys t := (List.nodup_cons.mp h).2
      have ha : a ∉ dkeys t := (List.nodup_cons.mp h).1
      show dget (dupdate (dinsert d a b) t) key = _
      rw [ih (dinsert d a b) hnd]
      by_cases hk : key = a
      · subst hk
        rw [(dget_eq_none_iff t key).mpr ha, dget_cons, if_pos rfl, oOr_none,
          dget_dinsert, if_pos rfl, oOr_some]
      · rw [dget_cons, if_neg (fun hh => hk hh.symm), dget_dinsert, if_neg hk]

theorem dget_derase {α : Type} (d : Dict α) (k key : String) :
    dget (derase d k) key = if key = k then none else dget d key := by
  induction d with
  | nil => simp [derase, dget]
  | cons p t ih =>
      obtain ⟨a, b⟩ := p
      by_cases hak : a = k
      · subst hak
        have h1 : derase ((a, b) :: t) a = derase t a := by
          simp [derase, List.filter]
        rw [h1, ih]
        by_cases hk : key = a
        · rw [if_pos hk, if_pos hk]
        · rw [if_neg hk, if_neg hk, dget_cons,
            if_neg (fun hh : a = key => hk hh.symm)]
      · have h1 : derase ((a, b) :: t) k = (a, b) :: derase t k := by
          simp [derase, List.filter, hak]
        rw [h1, dget_cons, ih, dget_cons]
        by_cases h2 : a = key
        · subst h2
          rw [if_pos rfl, if_neg hak, if_pos rfl]
        · rw [if_neg h2]
          by_cases h3 : key = k
          · rw [if_pos h3, if_pos h3]
          · rw [if_neg h3, if_neg h3, if_neg h2]

theorem nodupKeys_dinsert {α : Type} (d : Dict α) (k : String) (v : α)
    (h : nodupKeys d) : nodupKeys (dinsert d k v) := by
  induction d with
  | nil => simp [dinsert, nodupKeys, dkeys]
  | cons p t ih =>
      obtain ⟨a, b⟩ := p
      have hnd : nodupKeys t := (List.nodup_cons.mp h).2
      have hna : a ∉ dkeys t := (List.nodup_cons.mp h).1
      by_cases hak : a = k
      · subst hak
        simpa [dinsert, nodupKeys, dkeys_cons] using h
      · have hk : dkeys (dinsert t k v) = dkeys t ∨ dkeys (dinsert t k v) = dkeys t ++ [k] := by
          clear ih hna hnd h
          induction t with
          | nil => right; rfl
          | cons q s ihs =>
              obtain ⟨c, e⟩ := q
              by_cases hck : c = k
              · left; simp [dinsert, hck, dkeys_cons]
              · rcases ihs with h1 | h1
                · left; simp [dinsert, hck, dkeys_cons, h1]
                · right; simp [dinsert, hck, dkeys_cons, h1]
        rw [nodupKeys, dinsert, if_neg hak, dkeys_cons, List.nodup_cons]
        refine ⟨?_, ih hnd⟩
        rcases hk with h1 | h1
        · rw [h1]; exact hna
        · rw [h1]
          simp only [List.mem_append, List.mem_singleton]
          rintro (h2 | h2)
          · exact hna h2
          · exact hak h2

theorem nodupKeys_foldl_dinsert {α β : Type} (l : List β) (keyf : β → String)
    (valf : β → α) (acc : Dict α) (h : nodupKeys acc) :
    nodupKeys (l.foldl (fun acc p => dinsert acc (keyf p) (valf p)) acc) := by
  induction l generalizing acc with
  | nil => exact h
  | cons p t ih => exact ih _ (nodupKeys_dinsert _ _ _ h)

/-- A fold whose every step either leaves the dict unchanged or performs
one insertion preserves key uniqueness. -/
theorem nodupKeys_foldl_step {α β : Type} (step : Dict α → β → Dict α)
    (hstep : ∀ acc p, step acc p = acc ∨ ∃ k v, step acc p = dinsert acc k v)
    (l : List β) (acc : Dict α) (h : nodupKeys acc) :
    nodupKeys (l.foldl step acc) := by
  induction l generalizing acc with
  | nil => exact h
  | cons p t ih =>
      rcases hstep acc p with h1 | ⟨k, v, h1⟩ <;> rw [List.foldl_cons, h1]
      · exact ih _ h
      · exact ih _ (nodupKeys_dinsert _ _ _ h)

/-! Lemmas about the evaluation pipeline's folds. -/

/-- Lookup in the values dict built by evaluate_expressions: a key of the
dependency graph that is neither pinned nor failed maps to its final
namespace value. -/
theorem dget_values_fold (g : Dict (Finset String)) (pk : Finset String)
    (errs : Dict String) (nsF : NS) (acc : Dict PyVal) (key : String) :
    dget (g.foldl
      (fun vals p =>
        if p.1 ∈ pk ∨ (dget errs p.1).isSome then vals
        else dinsert vals p.1 ((nsF p.1).getD .vnone)) acc) key =
    if key ∈ dkeys g ∧ key ∉ pk ∧ dget errs key = none
    then some ((nsF key).getD .vnone) else dget acc key := by
  induction g generalizing acc with
  | nil =>
      rw [List.foldl_nil, if_neg]
      rintro ⟨h1, _⟩
      simp [dkeys] at h1
  | cons p t ih =>
      obtain ⟨a, deps⟩ := p
      rw [List.foldl_cons]
      by_cases hc : a ∈ pk ∨ (dget errs a).isSome
      · rw [if_pos hc, ih]
        by_cases hk : key = a
        · subst hk
          have hfalse : ¬(key ∉ pk ∧ dget errs key = none) := by
            rintro ⟨h2, h3⟩
            rcases hc with h4 | h4
            · exact h2 h4
            · rw [h3] at h4; simp at h4
          rw [if_neg (fun hh => hfalse hh.2), if_neg (fun hh => hfalse hh.2)]
        · have hiff : (key ∈ dkeys ((a, deps) :: t) ∧ key ∉ pk ∧ dget errs key = none)
              ↔ (key ∈ dkeys t ∧ key ∉ pk ∧ dget errs key = none) := by
            rw [dkeys_cons, List.mem_cons]
            constructor
            · rintro ⟨h1 | h1, h2⟩
              · exact absurd h1 hk
              · exact ⟨h1, h2⟩
            · rintro ⟨h1, h2⟩
              exact ⟨Or.inr h1, h2⟩
          rw [if_congr hiff rfl rfl]
      · rw [if_neg hc, ih, dget_dinsert]
        push_neg at hc
        obtain ⟨hc1, hc2⟩ := hc
        have hc2' : dget errs a = none := by
          cases h : dget errs a with
          | none => rfl
          | some v => rw [h] at hc2; simp at hc2
        clear hc2
        by_cases hk : key = a
        · subst hk
          have hmem : key ∈ dkeys ((key, deps) :: t) := by
            rw [dkeys_cons]; exact List.mem_cons_self _ _
          have hrhs : key ∈ dkeys ((key, deps) :: t) ∧ key ∉ pk ∧ dget errs key = none :=
            ⟨hmem, hc1, hc2'⟩
          by_cases h2 : key ∈ dkeys t ∧ key ∉ pk ∧ dget errs key = none
          · rw [if_pos h2, if_pos hrhs]
          · rw [if_neg h2, if_pos rfl, if_pos hrhs]
        · have hiff : (key ∈ dkeys ((a, deps) :: t) ∧ key ∉ pk ∧ dget errs key = none)
              ↔ (key ∈ dkeys t ∧ key ∉ pk ∧ dget errs key = none) := by
            rw [dkeys_cons, List.mem_cons]
            constructor
            · rintro ⟨h1 | h1, h2⟩
              · exact absurd h1 hk
              · exact ⟨h1, h2⟩
            · rintro ⟨h1, h2⟩
              exact ⟨Or.inr h1, h2⟩
          rw [if_congr hiff rfl rfl, if_neg hk]

/-- Lookup in the dependency graph built from the registry (unique keys):
an entry exists exactly for expression-bearing settings, holding the
statically extracted references that are themselves setting keys. -/
theorem dget_build_dep_graph (reg : SettingsRegistry) (hreg : nodupKeys reg.settings)
    (key : String) :
    dget (build_dep_graph reg) key =
      (reg.get key).bind
        (fun defn => defn.value_expression.map (fun e => extract_deps e ∩ reg.keySet)) := by
  have aux : ∀ (l : Dict SettingDefinition), (dkeys l).Nodup → ∀ acc : Dict (Finset String),
      dget (l.foldl
        (fun g p =>
          match p.2.value_expression with
          | none => g
          | some e => dinsert g p.1 (extract_deps e ∩ reg.keySet)) acc) key =
      oOr ((dget l key).bind
        (fun defn => defn.value_expression.map (fun e => extract_deps e ∩ reg.keySet)))
        (dget acc key) := by
    intro l
    induction l with
    | nil => intro _ acc; rw [List.foldl_nil, dget, Option.none_bind, oOr_none]
    | cons p t ih =>
        intro hnd acc
        obtain ⟨a, defn⟩ := p
        have hnt : (dkeys t).Nodup := (List.nodup_cons.mp hnd).2
        have hna : a ∉ dkeys t := (List.nodup_cons.mp hnd).1
        rw [List.foldl_cons, ih hnt, dget_cons]
        by_cases hk : key = a
        · subst hk
          have ht : dget t key = none := (dget_eq_none_iff t key).mpr hna
          rw [ht, if_pos rfl]
          cases he : defn.value_expression with
          | none => simp [he, oOr_none]
          | some e => simp [he, oOr_none, oOr_some, dget_dinsert]
        · rw [if_neg (fun hh : a = key => hk hh.symm)]
          cases he : defn.value_expression with
          | none => simp [he]
          | some e => simp [he, dget_dinsert, hk]
  have h := aux reg.settings hreg []
  rw [build_dep_graph, h]
  have hnone : dget ([] : Dict (Finset String)) key = none := rfl
  rw [hnone, oOr_none_right]
  rfl

/-- Lookup in the namespace seeded with all schema defaults. -/
theorem seedNamespace_eq (reg : SettingsRegistry) (h : nodupKeys reg.settings)
    (key : String) :
    seedNamespace reg key = (reg.get key).map (fun d => d.default_value) := by
  have aux : ∀ (l : Dict SettingDefinition), (dkeys l).Nodup → ∀ ns0 : NS,
      (l.foldl (fun ns p => fun k => if k = p.1 then some p.2.default_value else ns k) ns0) key
        = oOr ((dget l key).map (fun d => d.default_value)) (ns0 key) := by
    intro l
    induction l with
    | nil => intro _ ns0; rw [List.foldl_nil, dget, Option.map_none', oOr_none]
    | cons p t ih =>
        intro hnd ns0
        obtain ⟨a, d⟩ := p
        have hnt : (dkeys t).Nodup := (List.nodup_cons.mp hnd).2
        have hna : a ∉ dkeys t := (List.nodup_cons.mp hnd).1
        rw [List.foldl_cons, ih hnt, dget_cons]
        by_cases hk : key = a
        · subst hk
          rw [(dget_eq_none_iff t key).mpr hna, if_pos rfl]
          simp [oOr_none, oOr_some]
        · rw [if_neg (fun hh : a = key => hk hh.symm)]
          simp [hk]
  rw [seedNamespace, aux reg.settings h]
  show oOr ((dget reg.settings key).map (fun d => d.default_value)) none = _
  rw [oOr_none_right]
  rfl

/-- Lookup in a namespace after overlaying a string map with coercion. -/
theorem overlayCoerced_eq (reg : SettingsRegistry) (m : Dict String)
    (hm : nodupKeys m) (ns : NS) (key : String) :
    overlayCoerced reg m ns key =
      oOr ((dget m key).bind (fun v =>
        (reg.get key).map (fun defn => _coerce (.vstr v) defn.setting_type))) (ns key) := by
  have aux : ∀ (l : Dict String), (dkeys l).Nodup → ∀ ns0 : NS,
      (l.foldl
        (fun ns p =>
          match reg.get p.1 with
          | some defn =>
              fun k => if k = p.1 then some (_coerce (.vstr p.2) defn.setting_type) else ns k
          | none => ns) ns0) key
        = oOr ((dget l key).bind (fun v =>
            (reg.get key).map (fun defn => _coerce (.vstr v) defn.setting_type))) (ns0 key) := by
    intro l
    induction l with
    | nil => intro _ ns0; rw [List.foldl_nil, dget, Option.none_bind, oOr_none]
    | cons p t ih =>
        intro hnd ns0
        obtain ⟨a, v⟩ := p
        have hnt : (dkeys t).Nodup := (List.nodup_cons.mp hnd).2
        have hna : a ∉ dkeys t := (List.nodup_cons.mp hnd).1
        rw [List.foldl_cons, ih hnt, dget_cons]
        by_cases hk : key = a
        · subst hk
          rw [(dget_eq_none_iff t key).mpr hna, if_pos rfl]
          cases hd : reg.get key with
          | none => simp [hd, oOr_none]
          | some defn => simp [hd, oOr_none, oOr_some]
        · rw [if_neg (fun hh : a = key => hk hh.symm)]
          cases hd : reg.get a with
          | none => rfl
          | some defn => simp [hk]
  rw [overlayCoerced, aux m hm ns]

/-- The initial namespace maps a pinned schema key to its type-coerced
pinned value. -/
theorem evalInitNS_pinned (reg : SettingsRegistry) (pinned config : Dict String)
    (key : String) (v : String) (defn : SettingDefinition)
    (hp : nodupKeys pinned) (hv : dget pinned key = some v)
    (hd : reg.get key = some defn) :
    evalInitNS reg pinned config key = some (_coerce (.vstr v) defn.setting_type) := by
  rw [evalInitNS, overlayCoerced_eq reg pinned hp _ key, hv, hd]
  rfl

/-- One evaluation step never rewrites the namespace entry of a pinned
key (its own step is skipped; other steps write only their own key). -/
theorem evalStep_ns_of_pinned (reg : SettingsRegistry) (pk : Finset String)
    (acc : NS × Dict String) (k' key : String) (hk : key ∈ pk) :
    (evalStep reg pk acc k').1 key = acc.1 key := by
  rw [evalStep]
  by_cases h1 : k' ∈ pk
  · rw [if_pos h1]
  · rw [if_neg h1]
    cases hd : reg.get k' with
    | none => rfl
    | some defn =>
        dsimp only
        cases he : defn.value_expression with
        | none => rfl
        | some e =>
            dsimp only
            cases hr : evalExpr true acc.1 e with
            | error msg => rfl
            | ok raw =>
                show (if key = k' then _ else acc.1 key) = acc.1 key
                rw [if_neg (fun hh : key = k' => h1 (hh ▸ hk))]

/-- Across any prefix of the evaluation loop the namespace entry of a
pinned key keeps its initial value. -/
theorem evalLoop_ns_of_pinned (reg : SettingsRegistry) (pk : Finset String)
    (key : String) (hk : key ∈ pk) :
    ∀ (l : List String) (acc : NS × Dict String),
      (l.foldl (evalStep reg pk) acc).1 key = acc.1 key := by
  intro l
  induction l with
  | nil => intro acc; rfl
  | cons k' t ih =>
      intro acc
      rw [List.foldl_cons, ih, evalStep_ns_of_pinned reg pk acc k' key hk]

/-- One evaluation step records an error only for a key that has a
definition with an expression and is not pinned. -/
theorem evalStep_errors_skip (reg : SettingsRegistry) (pk : Finset String)
    (acc : NS × Dict String) (k' key : String)
    (hcond : ¬∃ defn e, reg.get key = some defn ∧ defn.value_expression = some e ∧ key ∉ pk) :
    dget (evalStep reg pk acc k').2 key = dget acc.2 key := by
  rw [evalStep]
  by_cases h1 : k' ∈ pk
  · rw [if_pos h1]
  · rw [if_neg h1]
    cases hd : reg.get k' with
    | none => rfl
    | some defn =>
        dsimp only
        cases he : defn.value_expression with
        | none => rfl
        | some e =>
            dsimp only
            cases hr : evalExpr true acc.1 e with
            | ok raw => rfl
            | error msg =>
                show dget (dinsert acc.2 k' msg) key = dget acc.2 key
                rw [dget_dinsert, if_neg]
                intro hh
                subst hh
                exact hcond ⟨defn, e, hd, he, h1⟩

/-- Error lookup for an unconcerned key stays none through the loop. -/
theorem evalLoop_errors_skip (reg : SettingsRegistry) (pk : Finset String)
    (key : String)
    (hcond : ¬∃ defn e, reg.get key = some defn ∧ defn.value_expression = some e ∧ key ∉ pk) :
    ∀ (l : List String) (acc : NS × Dict String),
      dget (l.foldl (evalStep reg pk) acc).2 key = dget acc.2 key := by
  intro l
  induction l with
  | nil => intro acc; rfl
  | cons k' t ih =>
      intro acc
      rw [List.foldl_cons, ih, evalStep_errors_skip reg pk acc k' key hcond]

/-- Lookup characterization of EvaluationResult.values. -/
theorem values_lookup (reg : SettingsRegistry) (pinned config : Dict String)
    (key : String) :
    dget (evaluate_expressions reg pinned config).values key =
      if key ∈ dkeys (build_dep_graph reg) ∧ key ∉ pinnedKeysOf reg pinned ∧
          dget (evaluate_expressions reg pinned config).errors key = none
      then some (((evalFold reg pinned config).1 key).getD .vnone) else none := by
  show dget ((build_dep_graph reg).foldl _ []) key = _
  rw [dget_values_fold (build_dep_graph reg) (pinnedKeysOf reg pinned)
    (evalFold reg pinned config).2 (evalFold reg pinned config).1 [] key]
  rfl

/-- The error map of evaluate_expressions is the loop's error map. -/
theorem errors_eq_evalFold (reg : SettingsRegistry) (pinned config : Dict String) :
    (evaluate_expressions reg pinned config).errors = (evalFold reg pinned config).2 := rfl

/-- Membership in the pinned-key set recorded by evaluate_expressions. -/
theorem mem_pinnedKeysOf (reg : SettingsRegistry) (pinned : Dict String) (key : String) :
    key ∈ pinnedKeysOf reg pinned ↔
      ((dget pinned key).isSome ∧ (reg.get key).isSome) := by
  rw [pinnedKeysOf, List.mem_toFinset, List.mem_map]
  constructor
  · rintro ⟨p, hp, hk⟩
    obtain ⟨a, v⟩ := p
    obtain ⟨hmem, hcond⟩ := List.mem_filter.mp hp
    subst hk
    exact ⟨dget_of_mem_pair _ _ _ hmem, by simpa using hcond⟩
  · rintro ⟨h1, h2⟩
    cases hv : dget pinned key with
    | none => rw [hv] at h1; simp at h1
    | some v =>
        refine ⟨(key, v), List.mem_filter.mpr ⟨mem_pair_of_dget _ _ _ hv, ?_⟩, rfl⟩
        simpa using h2

/-- C1: every pinned key naming a schema attribute is skipped by
evaluate_expressions (no values entry, no error), every step of the
evaluation loop sees the pinned, type-coerced value in its namespace, and
the spec's chain a (default 5), b = a+1, c = b*2 yields b=6, c=12 with no
overrides and b=11, c=22 when a is pinned to 10 (the resolution pipeline
pins the merge of config defaults and user overrides; here the pinned map
is taken as an argument, exactly as evaluate_expressions receives it). -/
theorem claim_C1 (reg : SettingsRegistry) (pinned config : Dict String)
    (key : String) (v : String) (defn : SettingDefinition)
    (hp : nodupKeys pinned) (hv : dget pinned key = some v)
    (hd : reg.get key = some defn) :
    (dget (evaluate_expressions reg pinned config).values key = none
      ∧ dget (evaluate_expressions reg pinned config).errors key = none)
    ∧ (∀ l₁ l₂, evalOrder reg = l₁ ++ l₂ →
        (l₁.foldl (evalStep reg (pinnedKeysOf reg pinned))
          (evalInitNS reg pinned config, [])).1 key
          = some (_coerce (.vstr v) defn.setting_type))
    ∧ (dget (evaluate_expressions regABC [] []).values "b" = some (.vfloat 6)
       ∧ dget (evaluate_expressions regABC [] []).values "c" = some (.vfloat 12)
       ∧ dget (evaluate_expressions regABC [("a", "10")] []).values "b" = some (.vfloat 11)
       ∧ dget (evaluate_expressions regABC [("a", "10")] []).values "c" = some (.vfloat 22)
       ∧ dget (evaluate_expressions regABC [("a", "10")] []).values "a" = none) := by
  have hpk : key ∈ pinnedKeysOf reg pinned := by
    rw [mem_pinnedKeysOf]
    constructor
    · rw [hv]; rfl
    · rw [hd]; rfl
  refine ⟨⟨?_, ?_⟩, ?_, rfl, rfl, rfl, rfl, rfl⟩
  · rw [values_lookup, if_neg]
    rintro ⟨_, h2, _⟩
    exact h2 hpk
  · rw [errors_eq_evalFold]
    show dget ((evalOrder reg).foldl (evalStep reg (pinnedKeysOf reg pinned))
      (evalInitNS reg pinned config, ([] : Dict String))).2 key = none
    rw [evalLoop_errors_skip reg (pinnedKeysOf reg pinned) key]
    · rfl
    · rintro ⟨defn2, e2, _, _, hnp⟩
      exact hnp hpk
  · intro l₁ l₂ _
    rw [evalLoop_ns_of_pinned reg (pinnedKeysOf reg pinned) key hpk]
    exact evalInitNS_pinned reg pinned config key v defn hp hv hd

/-- C1 witness: the theorem applied to the concrete chain with a pinned
to "10". -/
theorem claim_C1_witness :
    dget (evaluate_expressions regABC [("a", "10")] []).values "a" = none
    ∧ dget (evaluate_expressions regABC [("a", "10")] []).errors "a" = none :=
  (claim_C1 regABC [("a", "10")] [] "a" "10"
    { key := "a", setting_type := "float", default_value := .vfloat 5 }
    (by decide) rfl rfl).1

/-- C3: a key with a value expression that is not pinned lands in exactly
one of values and errors; a key without an expression lands in neither;
and one key's failure (bad = 1/0) does not stop a sibling (good = a+1)
from evaluating. -/
theorem claim_C3 (reg : SettingsRegistry) (pinned config : Dict String)
    (hreg : nodupKeys reg.settings) :
    (∀ key defn e, reg.get key = some defn → defn.value_expression = some e →
        dget pinned key = none →
        ((dget (evaluate_expressions reg pinned config).values key).isSome ↔
          dget (evaluate_expressions reg pinned config).errors key = none))
    ∧ (∀ key defn, reg.get key = some defn → defn.value_expression = none →
        dget (evaluate_expressions reg pinned config).values key = none
        ∧ dget (evaluate_expressions reg pinned config).errors key = none)
    ∧ (dget (evaluate_expressions regBad [] []).errors "bad" = some "division by zero"
       ∧ dget (evaluate_expressions regBad [] []).values "bad" = none
       ∧ dget (evaluate_expressions regBad [] []).values "good" = some (.vfloat 4)) := by
  refine ⟨?_, ?_, rfl, rfl, rfl⟩
  · intro key defn e hd he hnp
    have hmem : key ∈ dkeys (build_dep_graph reg) := by
      rw [← dget_isSome_iff, dget_build_dep_graph reg hreg, hd]
      simp only [Option.some_bind]
      rw [he]
      rfl
    have hpk : key ∉ pinnedKeysOf reg pinned := by
      rw [mem_pinnedKeysOf, hnp]
      rintro ⟨h1, _⟩
      simp at h1
    constructor
    · intro hsome
      by_contra herr
      rw [values_lookup, if_neg (fun hh => herr hh.2.2)] at hsome
      simp at hsome
    · intro herr
      rw [values_lookup, if_pos ⟨hmem, hpk, herr⟩]
      rfl
  · intro key defn hd he
    constructor
    · have hmem : key ∉ dkeys (build_dep_graph reg) := by
        rw [← dget_eq_none_iff, dget_build_dep_graph reg hreg, hd]
        simp only [Option.some_bind]
        rw [he]
        rfl
      rw [values_lookup, if_neg (fun hh => hmem hh.1)]
    · rw [errors_eq_evalFold]
      show dget ((evalOrder reg).foldl (evalStep reg (pinnedKeysOf reg pinned))
        (evalInitNS reg pinned config, ([] : Dict String))).2 key = none
      rw [evalLoop_errors_skip reg (pinnedKeysOf reg pinned) key]
      · rfl
      · rintro ⟨defn2, e2, hd2, he2, _⟩
        rw [hd] at hd2
        cases Option.some_inj.mp hd2
        rw [he] at he2
        exact Option.noConfusion he2

/-- C3 witness: the theorem applied to the bad/good registry at the
expression-bearing key good and the expression-free key a. -/
theorem claim_C3_witness :
    ((dget (evaluate_expressions regBad [] []).values "good").isSome ↔
      dget (evaluate_expressions regBad [] []).errors "good" = none)
    ∧ (dget (evaluate_expressions regBad [] []).values "a" = none
       ∧ dget (evaluate_expressions regBad [] []).errors "a" = none) :=
  ⟨(claim_C3 regBad [] [] (by decide)).1 "good"
      { key := "good", setting_type := "float", default_value := .vfloat 0,
        value_expression := some (.binop .add (.name "a") (.const (.vint 1))) }
      (.binop .add (.name "a") (.const (.vint 1))) rfl rfl rfl,
    (claim_C3 regBad [] [] (by decide)).2.1 "a"
      { key := "a", setting_type := "float", default_value := .vfloat 3 } rfl rfl⟩


/-- Erasing a key leaves lookups of that key none through any further
erase fold. -/
theorem dget_erase_fold_none (l : List String) (d : Dict String) (k : String)
    (h : dget d k = none) :
    dget (l.foldl (fun res k' => derase res k') d) k = none := by
  induction l generalizing d with
  | nil => exact h
  | cons a t ih =>
      rw [List.foldl_cons]
      apply ih
      rw [dget_derase]
      by_cases hk : k = a
      · rw [if_pos hk]
      · rw [if_neg hk]; exact h

theorem dget_erase_fold_mem (l : List String) (d : Dict String) (k : String)
    (h : k ∈ l) :
    dget (l.foldl (fun res k' => derase res k') d) k = none := by
  induction l generalizing d with
  | nil => simp at h
  | cons a t ih =>
      rw [List.foldl_cons]
      rcases List.mem_cons.mp h with h1 | h1
      · subst h1
        apply dget_erase_fold_none
        rw [dget_derase, if_pos rfl]
      · exact ih _ h1

/-- C9: the emitted table never contains any of the four scale keys,
whatever the registry, config defaults, user overrides or forced set. -/
theorem claim_C9 (reg : SettingsRegistry) (config overrides : Dict String)
    (forced : Finset String) (k : String) (hk : k ∈ SCALE_KEYS) :
    dget (resolve_settings reg config overrides forced) k = none := by
  rw [resolve_settings]
  exact dget_erase_fold_mem SCALE_KEYS _ k hk

/-- C9 witness: scale supplied as an override is still absent. -/
theorem claim_C9_witness :
    "scale" ∈ SCALE_KEYS
    ∧ dget (resolve_settings regABC [] [("scale", "50")] ∅) "scale" = none :=
  ⟨by decide, claim_C9 regABC [] [("scale", "50")] ∅ "scale" (by decide)⟩

/-- C8: resolution is deterministic — two runs on equal attribute table,
config-default map, override map and forced set produce identical emitted
maps and identical evaluation results (the embedding is a pure function
of exactly these four inputs, mirroring that the source mutates none of
them). -/
theorem claim_C8 (reg₁ reg₂ : SettingsRegistry) (c₁ c₂ o₁ o₂ : Dict String)
    (f₁ f₂ : Finset String) (hr : reg₁ = reg₂) (hc : c₁ = c₂) (ho : o₁ = o₂)
    (hf : f₁ = f₂) :
    resolve_settings reg₁ c₁ o₁ f₁ = resolve_settings reg₂ c₂ o₂ f₂
    ∧ evaluate_expressions reg₁ (merge_settings c₁ o₁) c₁
      = evaluate_expressions reg₂ (merge_settings c₂ o₂) c₂ := by
  subst hr; subst hc; subst ho; subst hf
  exact ⟨rfl, rfl⟩

/-- C8 witness: two runs on the concrete chain registry coincide. -/
theorem claim_C8_witness :
    resolve_settings regABC [("a", "10")] [] ∅ = resolve_settings regABC [("a", "10")] [] ∅
    ∧ evaluate_expressions regABC (merge_settings [("a", "10")] []) [("a", "10")]
      = evaluate_expressions regABC (merge_settings [("a", "10")] []) [("a", "10")] :=
  claim_C8 regABC regABC [("a", "10")] [("a", "10")] [] [] ∅ ∅ rfl rfl rfl rfl

/-- C5: the checked-in settings_registry revision is contradicted by its
own test test_apply_overrides_with_value — applying the override
map with a "value" entry (the computed-value formula) to a one-key table
changes nothing at all: the SettingDefinition dataclass of that revision
has no value_expression field and _apply_overrides never reads the
"value" key, while the test (and settings_eval.py, config.py and the
spec) require the formula to be injected. -/
theorem claim_C5_src_ignores_value :
    SrcRegistry._apply_overrides [("test_key", srcDefnC5)] srcOvC5
      = [("test_key", srcDefnC5)] := rfl

/-- C6 counterexample: a setting whose expression references no table
keys still receives a dependency-graph entry (with an empty set), where
the claim says it must be absent. -/
theorem claim_C6_counterexample :
    dget (build_dep_graph regNoDeps) "k" = some ∅
    ∧ extract_deps (.binop .div (.const (.vint 1)) (.const (.vint 0))) = ∅ := by
  constructor
  · rfl
  · rfl

/-- C6 amended: build_dep_graph has an entry for a key exactly when the
setting has a value_expression — whether or not any extracted reference
is table-resident — and the entry holds the extracted references
intersected with the table's key set (possibly empty); keys without an
expression are absent. -/
theorem claim_C6_amended (reg : SettingsRegistry) (hreg : nodupKeys reg.settings)
    (key : String) :
    dget (build_dep_graph reg) key =
      (reg.get key).bind
        (fun defn => defn.value_expression.map (fun e => extract_deps e ∩ reg.keySet))
    ∧ (key ∈ dkeys (build_dep_graph reg) ↔
        ∃ defn e, reg.get key = some defn ∧ defn.value_expression = some e) := by
  refine ⟨dget_build_dep_graph reg hreg key, ?_⟩
  rw [← dget_isSome_iff, dget_build_dep_graph reg hreg key]
  constructor
  · intro h
    cases hd : reg.get key with
    | none => rw [hd] at h; simp at h
    | some defn =>
        cases he : defn.value_expression with
        | none => rw [hd] at h; simp [he] at h
        | some e => exact ⟨defn, e, rfl, he⟩
  · rintro ⟨defn, e, hd, he⟩
    rw [hd]
    simp [he]

/-- C6 witness: the amended characterization applied to the concrete
no-reference registry. -/
theorem claim_C6_amended_witness :
    dget (build_dep_graph regNoDeps) "k" =
      (regNoDeps.get "k").bind
        (fun defn => defn.value_expression.map (fun e => extract_deps e ∩ regNoDeps.keySet)) :=
  (claim_C6_amended regNoDeps (by decide) "k").1


/-! Lemmas for the validator claims. -/

theorem isInfix_of_append (n : List Char) (E pre mid post : String)
    (hE : E = pre ++ (mid ++ post)) (h : List.IsInfix n mid.data) :
    List.IsInfix n E.data := by
  subst hE
  rw [String.data_append, String.data_append]
  obtain ⟨x, y, hxy⟩ := h
  exact ⟨pre.data ++ x, y ++ post.data, by rw [← hxy]; simp⟩

theorem string_append_ne_empty (a b : String) : a ++ "Value " ++ b ≠ "" := by
  intro h
  have h2 := congrArg String.length h
  rw [String.length_append, String.length_append] at h2
  have h3 : ("Value " : String).length = 6 := rfl
  have h4 : ("" : String).length = 0 := rfl
  rw [h3, h4] at h2
  omega

theorem check_bounds_not_both (defn : SettingDefinition) (val : PyVal) (coerced : String) :
    (_check_bounds defn val coerced).ok = true ∨ (_check_bounds defn val coerced).warning = "" := by
  unfold _check_bounds
  split_ifs
  · exact Or.inr rfl
  · exact Or.inr rfl
  · exact Or.inl rfl

theorem vfloat_not_both (defn : SettingDefinition) (raw : String) :
    (_validate_float defn raw).ok = true ∨ (_validate_float defn raw).warning = "" := by
  unfold _validate_float
  cases hp : parseFloat raw with
  | none => exact Or.inr rfl
  | some v => exact check_bounds_not_both defn (.vfloat v) raw

theorem vint_not_both (defn : SettingDefinition) (raw : String) :
    (_validate_int defn raw).ok = true ∨ (_validate_int defn raw).warning = "" := by
  unfold _validate_int
  cases hp : parseIntStr raw with
  | some n => exact check_bounds_not_both defn (.vint n) (toString n)
  | none =>
      cases hf : parseFloat raw with
      | none => exact Or.inr rfl
      | some f =>
          dsimp only
          by_cases hden : f.den = 1
          · rw [if_pos hden]
            exact check_bounds_not_both defn (.vint f.num) (toString f.num)
          · rw [if_neg hden]
            exact Or.inr rfl

theorem vbool_not_both (defn : SettingDefinition) (raw : String) :
    (_validate_bool defn raw).ok = true ∨ (_validate_bool defn raw).warning = "" := by
  unfold _validate_bool
  split_ifs
  · exact Or.inl rfl
  · exact Or.inl rfl
  · exact Or.inr rfl

theorem venum_not_both (defn : SettingDefinition) (raw : String) :
    (_validate_enum defn raw).ok = true ∨ (_validate_enum defn raw).warning = "" := by
  unfold _validate_enum
  split_ifs
  · exact Or.inl rfl
  · cases h1 : defn.options.find? (fun p => strLower p.1 == strLower raw) with
    | some p => exact Or.inl rfl
    | none =>
        dsimp only
        cases h2 : defn.options.find? (fun p => strLower p.2 == strLower raw) with
        | some p => exact Or.inl rfl
        | none => exact Or.inr rfl

theorem validate_not_both (defn : SettingDefinition) (raw : String) :
    (validate defn raw).ok = true ∨ (validate defn raw).warning = "" := by
  unfold validate
  split_ifs
  · exact vfloat_not_both defn raw
  · exact vint_not_both defn raw
  · exact vbool_not_both defn raw
  · exact venum_not_both defn raw
  · exact Or.inl rfl

theorem validate_float_eq (defn : SettingDefinition) (raw : String) (val : Rat)
    (htype : defn.setting_type = "float") (hparse : parseFloat raw = some val) :
    validate defn raw = _check_bounds defn (.vfloat val) raw := by
  unfold validate
  rw [if_pos htype]
  unfold _validate_float
  rw [hparse]

theorem belowOpt_eq_false (q : Rat) (o : Option Rat)
    (h : ∀ m, o = some m → ¬ q < m) : belowOpt q o = false := by
  cases o with
  | none => rfl
  | some m =>
      unfold belowOpt
      exact decide_eq_false (h m rfl)

theorem aboveOpt_eq_false (q : Rat) (o : Option Rat)
    (h : ∀ m, o = some m → ¬ m < q) : aboveOpt q o = false := by
  cases o with
  | none => rfl
  | some m =>
      unfold aboveOpt
      exact decide_eq_false (h m rfl)

/-- C7: numeric validation — an int attribute normalizes a whole-number
float string ("3.0" becomes "3"); hard-bound violations reject with a
message naming the violated bound; values inside the hard bounds but
past a warning bound are accepted with a warning; no outcome carries
both a rejection and a warning; and the spec's 0.001/4 example behaves
exactly as stated. -/
theorem claim_C7 :
    (∀ defn raw, ¬((validate defn raw).ok = false ∧ (validate defn raw).warning ≠ ""))
    ∧ (∀ defn raw f, defn.setting_type = "int" → parseIntStr raw = none →
        parseFloat raw = some f → f.den = 1 →
        validate defn raw = _check_bounds defn (.vint f.num) (toString f.num))
    ∧ validate defnInt "3.0" = { ok := true, coerced_value := "3" }
    ∧ (∀ defn raw val m, defn.setting_type = "float" → parseFloat raw = some val →
        defn.minimum_value = some m → val < m →
        (validate defn raw).ok = false
        ∧ List.IsInfix "minimum".data (validate defn raw).error.data)
    ∧ (∀ defn raw val M, defn.setting_type = "float" → parseFloat raw = some val →
        defn.maximum_value = some M → M < val →
        (∀ m, defn.minimum_value = some m → ¬ val < m) →
        (validate defn raw).ok = false
        ∧ List.IsInfix "maximum".data (validate defn raw).error.data)
    ∧ (∀ defn raw val, defn.setting_type = "float" → parseFloat raw = some val →
        (∀ m, defn.minimum_value = some m → ¬ val < m) →
        (∀ M, defn.maximum_value = some M → ¬ M < val) →
        (belowOpt val defn.minimum_value_warning = true
          ∨ aboveOpt val defn.maximum_value_warning = true) →
        (validate defn raw).ok = true ∧ (validate defn raw).warning ≠ "")
    ∧ ((validate defnBounds "5").ok = false
       ∧ List.IsInfix "maximum".data (validate defnBounds "5").error.data
       ∧ validate defnBounds "4" = { ok := true, coerced_value := "4" }
       ∧ (validate defnBounds "0.0005").ok = false
       ∧ List.IsInfix "minimum".data (validate defnBounds "0.0005").error.data) := by
  refine ⟨?_, ?_, rfl, ?_, ?_, ?_, rfl, ?_, rfl, rfl, ?_⟩
  · intro defn raw ⟨hok, hwarn⟩
    rcases validate_not_both defn raw with h | h
    · rw [hok] at h; exact Bool.noConfusion h
    · exact hwarn h
  · intro defn raw f htype hint hfloat hden
    unfold validate
    rw [if_neg (by rw [htype]; decide), if_pos htype]
    unfold _validate_int
    rw [hint, hfloat]
    dsimp only
    rw [if_pos hden]
  · intro defn raw val m htype hparse hmin hlt
    rw [validate_float_eq defn raw val htype hparse]
    unfold _check_bounds
    have hb : belowOpt ((asRat? (.vfloat val)).getD 0) defn.minimum_value = true := by
      show belowOpt val defn.minimum_value = true
      rw [hmin]
      unfold belowOpt
      exact decide_eq_true hlt
    rw [if_pos hb]
    refine ⟨rfl, ?_⟩
    exact isInfix_of_append _ _ ("Value " ++ pyStr (.vfloat val) ++ unitSuffix defn)
      " is below minimum ("
      (optBoundStr defn.minimum_value ++ (unitSuffix defn ++ ")"))
      (by simp [String.append_assoc]) (by decide)
  · intro defn raw val M htype hparse hmax hlt hnomin
    rw [validate_float_eq defn raw val htype hparse]
    unfold _check_bounds
    have hb : belowOpt ((asRat? (.vfloat val)).getD 0) defn.minimum_value = false :=
      belowOpt_eq_false val defn.minimum_value hnomin
    have ha : aboveOpt ((asRat? (.vfloat val)).getD 0) defn.maximum_value = true := by
      show aboveOpt val defn.maximum_value = true
      rw [hmax]
      unfold aboveOpt
      exact decide_eq_true hlt
    rw [if_neg (by rw [hb]; exact Bool.noConfusion), if_pos ha]
    refine ⟨rfl, ?_⟩
    exact isInfix_of_append _ _ ("Value " ++ pyStr (.vfloat val) ++ unitSuffix defn)
      " is above maximum ("
      (optBoundStr defn.maximum_value ++ (unitSuffix defn ++ ")"))
      (by simp [String.append_assoc]) (by decide)
  · intro defn raw val htype hparse hnomin hnomax hwarnb
    rw [validate_float_eq defn raw val htype hparse]
    unfold _check_bounds
    have hb : belowOpt ((asRat? (.vfloat val)).getD 0) defn.minimum_value = false :=
      belowOpt_eq_false val defn.minimum_value hnomin
    have ha : aboveOpt ((asRat? (.vfloat val)).getD 0) defn.maximum_value = false :=
      aboveOpt_eq_false val defn.maximum_value hnomax
    rw [if_neg (by rw [hb]; exact Bool.noConfusion),
      if_neg (by rw [ha]; exact Bool.noConfusion)]
    refine ⟨rfl, ?_⟩
    show boundsWarning defn (.vfloat val) ≠ ""
    unfold boundsWarning
    rcases hwarnb with hw | hw
    · rw [if_pos (show belowOpt ((asRat? (.vfloat val)).getD 0)
        defn.minimum_value_warning = true from hw)]
      intro hh
      have h2 := congrArg String.length hh
      simp only [String.length_append] at h2
      have h3 : ("Value " : String).length = 6 := rfl
      rw [h3] at h2
      have h4 : ("" : String).length = 0 := rfl
      rw [h4] at h2
      omega
    · by_cases hw2 : belowOpt ((asRat? (.vfloat val)).getD 0) defn.minimum_value_warning = true
      · rw [if_pos hw2]
        intro hh
        have h2 := congrArg String.length hh
        simp only [String.length_append] at h2
        have h3 : ("Value " : String).length = 6 := rfl
        rw [h3] at h2
        have h4 : ("" : String).length = 0 := rfl
        rw [h4] at h2
        omega
      · rw [if_neg hw2, if_pos (show aboveOpt ((asRat? (.vfloat val)).getD 0)
          defn.maximum_value_warning = true from hw)]
        intro hh
        have h2 := congrArg String.length hh
        simp only [String.length_append] at h2
        have h3 : ("Value " : String).length = 6 := rfl
        rw [h3] at h2
        have h4 : ("" : String).length = 0 := rfl
        rw [h4] at h2
        omega
  · have he : (validate defnBounds "5").error = "Value 5.0 is above maximum (4.0)" := rfl
    rw [he]
    decide
  · have he : (validate defnBounds "0.0005").error = "Value 0.0005 is below minimum (0.001)" := rfl
    rw [he]
    decide

/-- C7 witness: the bound-violation conjuncts applied to the concrete
0.001/4 attribute and the 0.02 warning example. -/
theorem claim_C7_witness :
    ((validate defnBounds "0.0005").ok = false
      ∧ List.IsInfix "minimum".data (validate defnBounds "0.0005").error.data)
    ∧ ((validate defnWarn "0.02").ok = true ∧ (validate defnWarn "0.02").warning ≠ "") :=
  ⟨claim_C7.2.2.2.1 defnBounds "0.0005" (Rat.divInt 5 10000) (Rat.divInt 1 1000)
      rfl rfl rfl (by decide),
    claim_C7.2.2.2.2.2.1 defnWarn "0.02" (Rat.divInt 1 50) rfl rfl
      (by intro m hm; cases hm; decide)
      (by intro M hM; exact Option.noConfusion hM)
      (Or.inl (by decide))⟩


/-! Lemmas about the resolution pipeline's stages. -/

theorem contains_eq_false_of_not_mem (l : List String) (k : String) (h : k ∉ l) :
    l.contains k = false := by
  simp [h]

theorem dget_filter_none {α : Type} (d : Dict α) (p : String × α → Bool) (key : String)
    (h : ∀ v, (key, v) ∈ d → p (key, v) = false) :
    dget (d.filter p) key = none := by
  induction d with
  | nil => rfl
  | cons a t ih =>
      obtain ⟨k1, v1⟩ := a
      have ht : ∀ v, (key, v) ∈ t → p (key, v) = false :=
        fun v hv => h v (List.mem_cons_of_mem _ hv)
      by_cases hp : p (k1, v1) = true
      · rw [List.filter_cons_of_pos hp, dget_cons]
        by_cases hk : k1 = key
        · subst hk
          rw [h v1 (List.mem_cons_self _ _)] at hp
          exact Bool.noConfusion hp
        · rw [if_neg hk]
          exact ih ht
      · rw [List.filter_cons_of_neg hp]
        exact ih ht

theorem dget_filter_keep {α : Type} (d : Dict α) (p : String × α → Bool) (key : String)
    (h : ∀ v, (key, v) ∈ d → p (key, v) = true) :
    dget (d.filter p) key = dget d key := by
  induction d with
  | nil => rfl
  | cons a t ih =>
      obtain ⟨k1, v1⟩ := a
      have ht : ∀ v, (key, v) ∈ t → p (key, v) = true :=
        fun v hv => h v (List.mem_cons_of_mem _ hv)
      by_cases hk : k1 = key
      · subst hk
        rw [List.filter_cons_of_pos (h v1 (List.mem_cons_self _ _)), dget_cons,
          if_pos rfl, dget_cons, if_pos rfl]
      · by_cases hp : p (k1, v1) = true
        · rw [List.filter_cons_of_pos hp, dget_cons, if_neg hk, dget_cons, if_neg hk]
          exact ih ht
        · rw [List.filter_cons_of_neg hp, dget_cons, if_neg hk]
          exact ih ht

theorem dget_scale_fold_preserve (l : List String) (d : Dict String) (key : String)
    (h : key ∉ l) :
    dget (l.foldl (fun res k => derase res k) d) key = dget d key := by
  induction l generalizing d with
  | nil => rfl
  | cons a t ih =>
      rw [List.foldl_cons, ih _ (fun hh => h (List.mem_cons_of_mem _ hh)), dget_derase,
        if_neg (fun hh : key = a => h (by rw [hh]; exact List.mem_cons_self a t))]

theorem dget_gcodeFill_preserve (reg : SettingsRegistry) (d : Dict String)
    (key : String) (h : key ∉ GCODE_SETTINGS) :
    dget (gcodeFill reg d) key = dget d key := by
  rw [gcodeFill]
  have aux : ∀ (l : List String) (d : Dict String), key ∉ l →
      dget (l.foldl
        (fun res k' =>
          if (dget res k').isSome then res
          else
            match reg.get k' with
            | some defn =>
                match defn.default_value with
                | .vnone => res
                | v => dinsert res k' (pyStr v)
            | none => res) d) key = dget d key := by
    intro l
    induction l with
    | nil => intro d _; rfl
    | cons a t ih =>
        intro d hmem
        have ha : a ≠ key := fun hh => hmem (hh ▸ List.mem_cons_self _ _)
        have ht : key ∉ t := fun hh => hmem (List.mem_cons_of_mem _ hh)
        rw [List.foldl_cons, ih _ ht]
        by_cases h1 : (dget d a).isSome
        · rw [if_pos h1]
        · rw [if_neg h1]
          cases hd : reg.get a with
          | none => rfl
          | some defn =>
              dsimp only
              cases defn.default_value with
              | vnone => rfl
              | vint n => rw [dget_dinsert, if_neg (fun hh => ha hh.symm)]
              | vfloat q => rw [dget_dinsert, if_neg (fun hh => ha hh.symm)]
              | vbool b => rw [dget_dinsert, if_neg (fun hh => ha hh.symm)]
              | vstr str => rw [dget_dinsert, if_neg (fun hh => ha hh.symm)]
              | vlist l2 => rw [dget_dinsert, if_neg (fun hh => ha hh.symm)]
  exact aux GCODE_SETTINGS d h

theorem dget_expandGcode_preserve (reg : SettingsRegistry) (d : Dict String)
    (key : String) (h : key ∉ GCODE_SETTINGS) :
    dget (expandGcodeFields reg d) key = dget d key := by
  rw [expandGcodeFields]
  have aux : ∀ (l : List String) (lookup : Dict String) (d2 : Dict String), key ∉ l →
      dget (l.foldl
        (fun res k' =>
          match dget res k' with
          | some v => dinsert res k' (expand_gcode_tokens v lookup)
          | none => res) d2) key = dget d2 key := by
    intro l lookup
    induction l with
    | nil => intro d2 _; rfl
    | cons a t ih =>
        intro d2 hmem
        have ha : a ≠ key := fun hh : a = key =>
          hmem (by rw [← hh]; exact List.mem_cons_self a t)
        have ht : key ∉ t := fun hh => hmem (List.mem_cons_of_mem _ hh)
        rw [List.foldl_cons, ih _ ht]
        cases h1 : dget d2 a with
        | none => rfl
        | some v => rw [dget_dinsert, if_neg (fun hh => ha hh.symm)]
  exact aux GCODE_SETTINGS (tokenLookup reg d) d h

theorem nodupKeys_dupdate {α : Type} (d other : Dict α) (h : nodupKeys d) :
    nodupKeys (dupdate d other) := by
  rw [dupdate]
  exact nodupKeys_foldl_step _ (fun acc p => Or.inr ⟨p.1, p.2, rfl⟩) other d h

theorem nodupKeys_strValues (vals : Dict PyVal) : nodupKeys (strValues vals) := by
  rw [strValues]
  exact nodupKeys_foldl_step _ (fun acc p => Or.inr ⟨p.1, pyStr p.2, rfl⟩) vals []
    List.nodup_nil

theorem nodupKeys_gcodeFill (reg : SettingsRegistry) (d : Dict String)
    (h : nodupKeys d) : nodupKeys (gcodeFill reg d) := by
  rw [gcodeFill]
  apply nodupKeys_foldl_step _ _ _ _ h
  intro acc k'
  by_cases h1 : (dget acc k').isSome
  · left; rw [if_pos h1]
  · rw [if_neg h1]
    cases hd : reg.get k' with
    | none => left; rfl
    | some defn =>
        dsimp only
        cases defn.default_value with
        | vnone => left; rfl
        | vint n => right; exact ⟨_, _, rfl⟩
        | vfloat q => right; exact ⟨_, _, rfl⟩
        | vbool b => right; exact ⟨_, _, rfl⟩
        | vstr str => right; exact ⟨_, _, rfl⟩
        | vlist l => right; exact ⟨_, _, rfl⟩

theorem nodupKeys_expandGcode (reg : SettingsRegistry) (d : Dict String)
    (h : nodupKeys d) : nodupKeys (expandGcodeFields reg d) := by
  rw [expandGcodeFields]
  apply nodupKeys_foldl_step _ _ _ _ h
  intro acc k'
  cases h1 : dget acc k' with
  | none => left; rfl
  | some v => right; exact ⟨_, _, rfl⟩

theorem nodupKeys_resolvedPrePrune (reg : SettingsRegistry)
    (config overrides : Dict String) :
    nodupKeys (resolvedPrePrune reg config overrides) := by
  show nodupKeys (expandGcodeFields reg (gcodeFill reg
    (dupdate (strValues (evaluate_expressions reg (merge_settings config overrides)
      config).values) (merge_settings config overrides))))
  exact nodupKeys_expandGcode reg _ (nodupKeys_gcodeFill reg _
    (nodupKeys_dupdate _ _ (nodupKeys_strValues _)))

/-- C2: a key whose pre-prune string value equals its definition's
default string form is dropped from the emitted table unless it is a
user override, a forced key or a gcode template field; in particular
roofing_layer_count (default "0", forced, config-pinned to "0", not
overridden) is emitted as "0", while a non-forced attribute computing to
its own default is not emitted. -/
theorem claim_C2 (reg : SettingsRegistry) (config overrides : Dict String)
    (forced : Finset String) (key v : String) (defn : SettingDefinition)
    (hd : reg.get key = some defn)
    (hpre : dget (resolvedPrePrune reg config overrides) key = some v)
    (hv : v = pyStr defn.default_value)
    (hov : dmem overrides key = false)
    (hforced : key ∉ forced)
    (hgc : key ∉ GCODE_SETTINGS) :
    dget (resolve_settings reg config overrides forced) key = none
    ∧ dget (resolve_settings regRoofing cfgRoofing [] {"roofing_layer_count"})
        "roofing_layer_count" = some "0"
    ∧ dget (resolve_settings regSelfDefault [] [] ∅) "d" = none := by
  refine ⟨?_, rfl, rfl⟩
  rw [resolve_settings]
  apply dget_erase_fold_none
  apply dget_filter_none
  intro w hw
  have hwv : w = v := by
    have h1 := dget_of_nodup_mem _ (nodupKeys_resolvedPrePrune reg config overrides) _ _ hw
    rw [hpre] at h1
    exact (Option.some_inj.mp h1).symm
  show (if GCODE_SETTINGS.contains key then true
    else match reg.get key with
      | some defn =>
          !(pyStr defn.default_value == w && !dmem overrides key &&
            !(decide (key ∈ forced)))
      | none => true) = false
  rw [if_neg (by rw [contains_eq_false_of_not_mem _ _ hgc]; exact Bool.noConfusion), hd]
  dsimp only
  rw [hwv, hv, hov]
  simp [decide_eq_false hforced]

/-- C2 witness: the drop rule applied to the self-default registry's key
d, whose computed string "2.0" equals its default's string form. -/
theorem claim_C2_witness :
    dget (resolvedPrePrune regSelfDefault [] []) "d" = some "2.0"
    ∧ dget (resolve_settings regSelfDefault [] [] ∅) "d" = none :=
  ⟨rfl,
    (claim_C2 regSelfDefault [] [] ∅ "d" "2.0"
      { key := "d", setting_type := "float", default_value := .vfloat 2,
        value_expression := some (.binop .mul (.name "a") (.const (.vint 2))) }
      rfl rfl rfl rfl (by decide) (by decide)).1⟩

/-- C10 counterexample: an override for a key absent from the attribute
table (machine_start_gcode in a registry without it) is not emitted
verbatim — its brace token is expanded, "{a}" becoming "7". -/
theorem claim_C10_counterexample :
    dget ovToken "machine_start_gcode" = some "{a}"
    ∧ dget (resolve_settings regToken [] ovToken ∅) "machine_start_gcode" = some "7"
    ∧ ("7" : String) ≠ "{a}" := by
  refine ⟨rfl, rfl, by decide⟩

/-- C10 amended: a config-default or override entry whose key has no
registry definition and is neither a scale key nor a gcode template
field is emitted verbatim — its merged value reaches the output without
coercion, validation, pruning or token expansion. -/
theorem claim_C10_amended (reg : SettingsRegistry) (config overrides : Dict String)
    (forced : Finset String) (key v : String)
    (hco : nodupKeys config)
    (hkey : reg.get key = none)
    (hscale : key ∉ SCALE_KEYS) (hgc : key ∉ GCODE_SETTINGS)
    (hmerge : dget (merge_settings config overrides) key = some v) :
    dget (resolve_settings reg config overrides forced) key = some v := by
  have hpinned : nodupKeys (merge_settings config overrides) :=
    nodupKeys_dupdate _ _ hco
  have hpre : dget (resolvedPrePrune reg config overrides) key = some v := by
    show dget (expandGcodeFields reg (gcodeFill reg
      (dupdate (strValues (evaluate_expressions reg (merge_settings config overrides)
        config).values) (merge_settings config overrides)))) key = some v
    rw [dget_expandGcode_preserve reg _ key hgc, dget_gcodeFill_preserve reg _ key hgc,
      dget_dupdate _ _ hpinned, hmerge, oOr_some]
  have hkeep : ∀ w, (key, w) ∈ resolvedPrePrune reg config overrides →
      (fun p : String × String =>
        if GCODE_SETTINGS.contains p.1 then true
        else
          match reg.get p.1 with
          | some defn =>
              !(pyStr defn.default_value == p.2 && !dmem overrides p.1 &&
                !(decide (p.1 ∈ forced)))
          | none => true) (key, w) = true := by
    intro w _
    show (if GCODE_SETTINGS.contains key then true
      else
        match reg.get key with
        | some defn =>
            !(pyStr defn.default_value == w && !dmem overrides key &&
              !(decide (key ∈ forced)))
        | none => true) = true
    rw [hkey]
    by_cases hcont : GCODE_SETTINGS.contains key = true
    · rw [if_pos hcont]
    · rw [if_neg hcont]
  rw [resolve_settings, dget_scale_fold_preserve _ _ _ hscale, pruneDefaults,
    dget_filter_keep _ _ _ hkeep]
  exact hpre

/-- C10 witness: an unknown key bed_glue supplied as an override comes
through resolve_settings byte-identically. -/
theorem claim_C10_amended_witness :
    dget (resolve_settings regToken [] [("bed_glue", "pva")] ∅) "bed_glue" = some "pva" :=
  claim_C10_amended regToken [] [("bed_glue", "pva")] ∅ "bed_glue" "pva"
    (by decide) rfl (by decide) (by decide) rfl


/-! Kahn-loop infrastructure for the topological_order contract. -/

theorem mem_dkeys_of_memberDeps (g : Dict (Finset String)) (key dep : String)
    (h : dep ∈ memberDeps g key) : key ∈ dkeys g := by
  rw [memberDeps] at h
  cases hd : dget g key with
  | none => rw [hd] at h; simp at h
  | some v => rw [← dget_isSome_iff, hd]; rfl

theorem memberDeps_mem_dkeys (g : Dict (Finset String)) (key dep : String)
    (h : dep ∈ memberDeps g key) : dep ∈ dkeys g := by
  rw [memberDeps, Finset.mem_inter, graphKeys, List.mem_toFinset] at h
  exact h.2

theorem acyclic_of_rank (g : Dict (Finset String)) (r : String → Nat)
    (h : ∀ key ∈ dkeys g, ∀ dep ∈ memberDeps g key, r dep < r key) :
    Acyclic g := by
  refine Subrelation.wf ?_ (InvImage.wf r Nat.lt_wfRel.wf)
  intro dep key hdk
  exact h key (mem_dkeys_of_memberDeps g key dep hdk) dep hdk

theorem processAdj_queue (ts : List String) (q : List String) (deg : String → Int)
    (hts : ts.Nodup) :
    (processAdj ts q deg).1 = q ++ ts.filter (fun t => decide (deg t - 1 = 0)) := by
  induction ts generalizing q deg with
  | nil => simp [processAdj]
  | cons t ts ih =>
      obtain ⟨hth, htn⟩ := List.nodup_cons.mp hts
      rw [List.filter_cons]
      show (processAdj ts (if deg t - 1 = 0 then q ++ [t] else q)
        (fun x => if x = t then deg t - 1 else deg x)).1 = _
      rw [ih _ _ htn]
      rw [List.filter_congr (fun x hx => by
        have hxt : x ≠ t := fun hh => hth (hh ▸ hx)
        show decide ((if x = t then deg t - 1 else deg x) - 1 = 0) = decide (deg x - 1 = 0)
        rw [if_neg hxt])]
      by_cases hd : deg t - 1 = 0
      · rw [if_pos hd, if_pos (by rw [hd]; rfl), List.append_assoc]
        rfl
      · rw [if_neg hd, if_neg (by simpa using hd)]

theorem processAdj_deg (ts : List String) (q : List String) (deg : String → Int)
    (hts : ts.Nodup) (x : String) :
    (processAdj ts q deg).2 x = if x ∈ ts then deg x - 1 else deg x := by
  induction ts generalizing q deg with
  | nil => simp [processAdj]
  | cons t ts ih =>
      obtain ⟨hth, htn⟩ := List.nodup_cons.mp hts
      show (processAdj ts (if deg t - 1 = 0 then q ++ [t] else q)
        (fun y => if y = t then deg t - 1 else deg y)).2 x = _
      rw [ih _ _ htn]
      by_cases hx : x ∈ ts
      · have hxt : x ≠ t := fun hh => hth (hh ▸ hx)
        rw [if_pos hx, if_pos (List.mem_cons_of_mem _ hx), if_neg hxt]
      · rw [if_neg hx]
        by_cases hxt : x = t
        · subst hxt
          rw [if_pos rfl, if_pos (List.mem_cons_self _ _)]
        · rw [if_neg hxt, if_neg (by
            intro hh
            rcases List.mem_cons.mp hh with h1 | h1
            · exact hxt h1
            · exact hx h1)]

theorem adjList_nodup (g : Dict (Finset String)) (hg : nodupKeys g) (node : String) :
    (adjList g node).Nodup :=
  ((List.filter_sublist g).map Prod.fst).nodup hg

theorem adjList_subset (g : Dict (Finset String)) (node : String) :
    ∀ x ∈ adjList g node, x ∈ dkeys g := by
  intro x hx
  rw [adjList] at hx
  obtain ⟨p, hp, hpx⟩ := List.mem_map.mp hx
  exact List.mem_map.mpr ⟨p, (List.mem_filter.mp hp).1, hpx⟩

theorem mem_adjList (g : Dict (Finset String)) (hg : nodupKeys g) (node x : String)
    (hnode : node ∈ dkeys g) :
    x ∈ adjList g node ↔ node ∈ memberDeps g x := by
  rw [adjList, memberDeps]
  constructor
  · intro hx
    obtain ⟨p, hp, hpx⟩ := List.mem_map.mp hx
    obtain ⟨hpg, hcond⟩ := List.mem_filter.mp hp
    obtain ⟨a, v⟩ := p
    have hax : a = x := hpx
    rw [← hax, dget_of_nodup_mem g hg a v hpg]
    rw [Finset.mem_inter, graphKeys, List.mem_toFinset]
    exact ⟨of_decide_eq_true hcond, hnode⟩
  · intro hmem
    rw [Finset.mem_inter] at hmem
    cases hd : dget g x with
    | none => rw [hd] at hmem; simp at hmem
    | some v =>
        rw [hd] at hmem
        refine List.mem_map.mpr
          ⟨(x, v), List.mem_filter.mpr ⟨mem_pair_of_dget g x v hd, ?_⟩, rfl⟩
        exact decide_eq_true hmem.1

theorem snoc_decomp {α : Type} (l : List α) (a : α) (p s : List α) (key : α)
    (h : l ++ [a] = p ++ key :: s) :
    (p = l ∧ key = a ∧ s = []) ∨ ∃ s2, l = p ++ key :: s2 ∧ s = s2 ++ [a] := by
  rcases List.eq_nil_or_concat s with hs | ⟨s2, b, hs⟩
  · subst hs
    obtain ⟨h1, h2⟩ := List.append_inj' h rfl
    have h3 : a = key := by injection h2
    exact Or.inl ⟨h1.symm, h3.symm, rfl⟩
  · subst hs
    rw [List.concat_eq_append, show p ++ key :: (s2 ++ [b]) = (p ++ key :: s2) ++ [b] from
      by simp] at h
    obtain ⟨h1, h2⟩ := List.append_inj' h rfl
    have h3 : a = b := by injection h2
    exact Or.inr ⟨s2, h1, by rw [h3, List.concat_eq_append]⟩

theorem filter_notmem_snoc_length (l : List String) (hl : l.Nodup) (order : List String)
    (a : String) (ha : a ∈ l) (hao : a ∉ order) :
    (l.filter (fun k => decide (k ∉ order ++ [a]))).length + 1 =
      (l.filter (fun k => decide (k ∉ order))).length := by
  induction l with
  | nil => cases ha
  | cons x t ih =>
      rw [List.filter_cons, List.filter_cons]
      by_cases hxa : x = a
      · subst hxa
        have hxt : x ∉ t := (List.nodup_cons.mp hl).1
        rw [if_neg (by simp), if_pos (by simpa using hao)]
        rw [List.filter_congr (fun k hk => by
          have hkx : k ≠ x := fun hh => hxt (hh ▸ hk)
          show decide (k ∉ order ++ [x]) = decide (k ∉ order)
          apply decide_eq_decide.mpr
          simp [List.mem_append, hkx])]
        rw [List.length_cons]
      · have hcong : decide (x ∉ order ++ [a]) = decide (x ∉ order) := by
          apply decide_eq_decide.mpr
          simp [List.mem_append, hxa]
        have hat : a ∈ t := by
          rcases List.mem_cons.mp ha with h1 | h1
          · exact absurd h1.symm hxa
          · exact h1
        have hih := ih (List.nodup_cons.mp hl).2 hat
        rw [hcong]
        by_cases hx : decide (x ∉ order) = true
        · rw [if_pos hx, if_pos hx, List.length_cons, List.length_cons, ← hih]
        · rw [if_neg hx, if_neg hx, hih]

theorem filter_not_mem_snoc (s : Finset String) (order : List String) (node : String)
    (_h : node ∉ order) :
    s.filter (fun d => d ∉ order ++ [node]) =
      (s.filter (fun d => d ∉ order)).erase node := by
  ext d
  rw [Finset.mem_erase, Finset.mem_filter, Finset.mem_filter]
  simp only [List.mem_append, List.mem_singleton]
  constructor
  · rintro ⟨hd1, hd2⟩
    push_neg at hd2
    exact ⟨hd2.2, hd1, hd2.1⟩
  · rintro ⟨hd1, hd2, hd3⟩
    refine ⟨hd2, ?_⟩
    rintro (h1 | h1)
    · exact hd3 h1
    · exact hd1 h1

theorem remaining_fold_eq_self (l acc : List String) (h : ∀ k ∈ l, k ∈ acc) :
    l.foldl (fun acc k => if k ∈ acc then acc else acc ++ [k]) acc = acc := by
  induction l with
  | nil => rfl
  | cons a t ih =>
      rw [List.foldl_cons, if_pos (h a (List.mem_cons_self _ _))]
      exact ih (fun k hk => h k (List.mem_cons_of_mem _ hk))

theorem remaining_fold_mem (l : List String) :
    ∀ (acc : List String) (k : String),
    (k ∈ l.foldl (fun acc k => if k ∈ acc then acc else acc ++ [k]) acc ↔
      k ∈ acc ∨ k ∈ l) := by
  induction l with
  | nil => intro acc k; simp
  | cons a t ih =>
      intro acc k
      rw [List.foldl_cons]
      by_cases ha : a ∈ acc
      · rw [if_pos ha, ih]
        constructor
        · rintro (h1 | h1)
          · exact Or.inl h1
          · exact Or.inr (List.mem_cons_of_mem _ h1)
        · rintro (h1 | h1)
          · exact Or.inl h1
          · rcases List.mem_cons.mp h1 with h2 | h2
            · exact Or.inl (h2 ▸ ha)
            · exact Or.inr h2
      · rw [if_neg ha, ih]
        simp only [List.mem_append, List.mem_cons]
        tauto

theorem remaining_fold_nodup (l : List String) :
    ∀ acc : List String, acc.Nodup →
    (l.foldl (fun acc k => if k ∈ acc then acc else acc ++ [k]) acc).Nodup := by
  induction l with
  | nil => intro acc h; exact h
  | cons a t ih =>
      intro acc h
      rw [List.foldl_cons]
      by_cases ha : a ∈ acc
      · rw [if_pos ha]; exact ih acc h
      · rw [if_neg ha]
        refine ih _ (List.nodup_append.mpr ⟨h, List.nodup_singleton a, ?_⟩)
        intro x hx hx1
        rw [List.mem_singleton] at hx1
        exact ha (hx1 ▸ hx)

/-- The Kahn loop invariant: starting from a state where the processed
order and the queue are disjoint graph keys, the degree function counts
each key's member dependencies not yet ordered, queue members have all
member dependencies ordered, unprocessed keys have a positive degree,
and ordered keys were emitted after their member dependencies — the loop
(given fuel exceeding the unprocessed-key count) drains its queue and
returns an order preserving all of these properties. -/
theorem kahnLoop_invariant (g : Dict (Finset String)) (hg : nodupKeys g)
    (fuel : Nat) :
    ∀ (queue order : List String) (deg : String → Int),
    (order ++ queue).Nodup →
    (∀ k ∈ order ++ queue, k ∈ dkeys g) →
    (∀ k, deg k = (((memberDeps g k).filter (fun d => d ∉ order)).card : Int)) →
    (∀ k ∈ queue, ∀ dep ∈ memberDeps g k, dep ∈ order) →
    (∀ k ∈ dkeys g, k ∉ order → k ∉ queue → deg k ≠ 0) →
    (∀ key p s, order = p ++ key :: s → ∀ dep ∈ memberDeps g key, dep ∈ p) →
    ((dkeys g).filter (fun k => decide (k ∉ order))).length < fuel →
    (kahnLoop g fuel queue order deg).2.1 = [] ∧
    (kahnLoop g fuel queue order deg).1.Nodup ∧
    (∀ k ∈ (kahnLoop g fuel queue order deg).1, k ∈ dkeys g) ∧
    (∀ k ∈ order ++ queue, k ∈ (kahnLoop g fuel queue order deg).1) ∧
    (∀ key p s, (kahnLoop g fuel queue order deg).1 = p ++ key :: s →
      ∀ dep ∈ memberDeps g key, dep ∈ p) ∧
    (∀ k ∈ dkeys g, k ∉ (kahnLoop g fuel queue order deg).1 →
      ∃ dep ∈ memberDeps g k, dep ∉ (kahnLoop g fuel queue order deg).1) := by
  induction fuel with
  | zero =>
      intro queue order deg _ _ _ _ _ _ hfuel
      exact absurd hfuel (Nat.not_lt_zero _)
  | succ n ih =>
      intro queue order deg hnd hsub hdeg hqueue hout horder hfuel
      cases queue with
      | nil =>
          have hres : kahnLoop g (n+1) [] order deg = (order, [], deg) := rfl
          rw [hres]
          refine ⟨rfl, ?_, ?_, ?_, ?_, ?_⟩
          · have h1 := hnd; rw [List.append_nil] at h1; exact h1
          · intro k hk
            exact hsub k (List.mem_append.mpr (Or.inl hk))
          · intro k hk
            rw [List.append_nil] at hk; exact hk
          · exact fun key p s hps => horder key p s hps
          · intro k hkg hkord
            have h5 := hout k hkg hkord (List.not_mem_nil k)
            rw [hdeg k] at h5
            have hc : ((memberDeps g k).filter (fun d => d ∉ order)).Nonempty := by
              refine Finset.nonempty_of_ne_empty (fun he => h5 ?_)
              rw [he, Finset.card_empty]; rfl
            obtain ⟨dep, hdep⟩ := hc
            obtain ⟨hdep1, hdep2⟩ := Finset.mem_filter.mp hdep
            exact ⟨dep, hdep1, hdep2⟩
      | cons node rest =>
          have hnodeg : node ∈ dkeys g :=
            hsub node (List.mem_append.mpr (Or.inr (List.mem_cons_self _ _)))
          have hdisj : order.Disjoint (node :: rest) := (List.nodup_append.mp hnd).2.2
          have hnodenord : node ∉ order :=
            fun h => hdisj h (List.mem_cons_self _ _)
          have hA : (adjList g node).Nodup := adjList_nodup g hg node
          have hq := processAdj_queue (adjList g node) rest deg hA
          have hd := processAdj_deg (adjList g node) rest deg hA
          have henq_fresh : ∀ t ∈ (adjList g node).filter
              (fun t => decide (deg t - 1 = 0)), t ∉ order ∧ t ∉ node :: rest := by
            intro t ht
            obtain ⟨htA, htd⟩ := List.mem_filter.mp ht
            have hdt : deg t = 1 := by
              have h1 : deg t - 1 = 0 := of_decide_eq_true htd
              omega
            constructor
            · intro htord
              obtain ⟨p, s, hps⟩ := List.append_of_mem htord
              have hsubdeps := horder t p s hps
              have hfe : (memberDeps g t).filter (fun d => d ∉ order) = ∅ := by
                rw [Finset.filter_eq_empty_iff]
                intro d hdm hdno
                refine hdno ?_
                rw [hps]
                exact List.mem_append.mpr (Or.inl (hsubdeps d hdm))
              rw [hdeg t, hfe] at hdt
              simp at hdt
            · intro htq
              have hqd := hqueue t htq
              have hfe : (memberDeps g t).filter (fun d => d ∉ order) = ∅ := by
                rw [Finset.filter_eq_empty_iff]
                intro d hdm hdno
                exact hdno (hqd d hdm)
              rw [hdeg t, hfe] at hdt
              simp at hdt
          have hres : kahnLoop g (n+1) (node :: rest) order deg
              = kahnLoop g n (processAdj (adjList g node) rest deg).1 (order ++ [node])
                  (processAdj (adjList g node) rest deg).2 := rfl
          rw [hres, hq]
          have hnd2 : ((order ++ [node]) ++ (rest ++ (adjList g node).filter
              (fun t => decide (deg t - 1 = 0)))).Nodup := by
            have hperm : (order ++ [node]) ++ (rest ++ (adjList g node).filter
                (fun t => decide (deg t - 1 = 0)))
                = (order ++ node :: rest) ++ (adjList g node).filter
                    (fun t => decide (deg t - 1 = 0)) := by
              simp
            rw [hperm]
            refine List.nodup_append.mpr ⟨hnd, hA.filter _, ?_⟩
            intro x hx1 hx2
            obtain ⟨hxo, hxq⟩ := henq_fresh x hx2
            rcases List.mem_append.mp hx1 with h1 | h1
            · exact hxo h1
            · exact hxq h1
          have hsub2 : ∀ k ∈ (order ++ [node]) ++ (rest ++ (adjList g node).filter
              (fun t => decide (deg t - 1 = 0))), k ∈ dkeys g := by
            intro k hk
            rcases List.mem_append.mp hk with h1 | h1
            · rcases List.mem_append.mp h1 with h2 | h2
              · exact hsub k (List.mem_append.mpr (Or.inl h2))
              · rw [List.mem_singleton] at h2; exact h2 ▸ hnodeg
            · rcases List.mem_append.mp h1 with h2 | h2
              · exact hsub k (List.mem_append.mpr (Or.inr (List.mem_cons_of_mem _ h2)))
              · exact adjList_subset g node k (List.mem_filter.mp h2).1
          have hdeg2 : ∀ k, (processAdj (adjList g node) rest deg).2 k
              = (((memberDeps g k).filter (fun d => d ∉ order ++ [node])).card : Int) := by
            intro k
            rw [hd k, filter_not_mem_snoc (memberDeps g k) order node hnodenord]
            by_cases hk : k ∈ adjList g node
            · rw [if_pos hk]
              have hnodemem : node ∈ memberDeps g k :=
                (mem_adjList g hg node k hnodeg).mp hk
              have hnodef : node ∈ (memberDeps g k).filter (fun d => d ∉ order) :=
                Finset.mem_filter.mpr ⟨hnodemem, hnodenord⟩
              rw [hdeg k, Finset.card_erase_of_mem hnodef]
              have hcpos : 1 ≤ ((memberDeps g k).filter (fun d => d ∉ order)).card :=
                Finset.card_pos.mpr ⟨node, hnodef⟩
              rw [Nat.cast_sub hcpos, Nat.cast_one]
            · rw [if_neg hk]
              have hnodemem : node ∉ memberDeps g k :=
                fun hm => hk ((mem_adjList g hg node k hnodeg).mpr hm)
              rw [hdeg k, Finset.erase_eq_of_not_mem
                (fun hf => hnodemem (Finset.mem_filter.mp hf).1)]
          have hqueue2 : ∀ k ∈ rest ++ (adjList g node).filter
              (fun t => decide (deg t - 1 = 0)),
              ∀ dep ∈ memberDeps g k, dep ∈ order ++ [node] := by
            intro k hk dep hdep
            rcases List.mem_append.mp hk with h1 | h1
            · exact List.mem_append.mpr
                (Or.inl (hqueue k (List.mem_cons_of_mem _ h1) dep hdep))
            · obtain ⟨hkA, hkd⟩ := List.mem_filter.mp h1
              have hdk1 : deg k = 1 := by
                have h2 : deg k - 1 = 0 := of_decide_eq_true hkd
                omega
              have hc1 : ((memberDeps g k).filter (fun d => d ∉ order)).card = 1 := by
                have h2 : ((((memberDeps g k).filter
                    (fun d => d ∉ order)).card : Nat) : Int) = 1 := by
                  rw [← hdeg k, hdk1]
                exact_mod_cast h2
              have hnodemem : node ∈ memberDeps g k :=
                (mem_adjList g hg node k hnodeg).mp hkA
              have hnodef : node ∈ (memberDeps g k).filter (fun d => d ∉ order) :=
                Finset.mem_filter.mpr ⟨hnodemem, hnodenord⟩
              have hsing : (memberDeps g k).filter (fun d => d ∉ order) = {node} := by
                obtain ⟨a, ha⟩ := Finset.card_eq_one.mp hc1
                rw [ha] at hnodef ⊢
                rw [Finset.mem_singleton] at hnodef
                rw [hnodef]
              by_cases hdo : dep ∈ order
              · exact List.mem_append.mpr (Or.inl hdo)
              · have hdf : dep ∈ (memberDeps g k).filter (fun d => d ∉ order) :=
                  Finset.mem_filter.mpr ⟨hdep, hdo⟩
                rw [hsing, Finset.mem_singleton] at hdf
                refine List.mem_append.mpr (Or.inr ?_)
                rw [hdf]
                exact List.mem_singleton.mpr rfl
          have hout2 : ∀ k ∈ dkeys g, k ∉ order ++ [node] →
              k ∉ rest ++ (adjList g node).filter (fun t => decide (deg t - 1 = 0)) →
              (processAdj (adjList g node) rest deg).2 k ≠ 0 := by
            intro k hkg hko hkq
            have hko1 : k ∉ order := fun h => hko (List.mem_append.mpr (Or.inl h))
            have hkn : k ≠ node := by
              intro h
              refine hko (List.mem_append.mpr (Or.inr ?_))
              rw [h]; exact List.mem_singleton.mpr rfl
            have hkrest : k ∉ rest := fun h => hkq (List.mem_append.mpr (Or.inl h))
            have hkold : k ∉ node :: rest := by
              intro h
              rcases List.mem_cons.mp h with h1 | h1
              · exact hkn h1
              · exact hkrest h1
            have hdk := hout k hkg hko1 hkold
            have hkenq : k ∉ (adjList g node).filter (fun t => decide (deg t - 1 = 0)) :=
              fun h => hkq (List.mem_append.mpr (Or.inr h))
            rw [hd k]
            by_cases hk : k ∈ adjList g node
            · rw [if_pos hk]
              intro h0
              exact hkenq (List.mem_filter.mpr ⟨hk, decide_eq_true h0⟩)
            · rw [if_neg hk]; exact hdk
          have horder2 : ∀ key p s, order ++ [node] = p ++ key :: s →
              ∀ dep ∈ memberDeps g key, dep ∈ p := by
            intro key p s hps dep hdep
            rcases snoc_decomp order node p s key hps with ⟨hp, hkey, _⟩ | ⟨s2, h1, _⟩
            · rw [hp]
              exact hqueue node (List.mem_cons_self _ _) dep (hkey ▸ hdep)
            · exact horder key p s2 h1 dep hdep
          have hbound2 : ((dkeys g).filter
              (fun k => decide (k ∉ order ++ [node]))).length < n := by
            have hlen := filter_notmem_snoc_length (dkeys g) hg order node hnodeg hnodenord
            omega
          obtain ⟨c1, c2, c3, c4, c5, c6⟩ :=
            ih (rest ++ (adjList g node).filter (fun t => decide (deg t - 1 = 0)))
              (order ++ [node]) (processAdj (adjList g node) rest deg).2
              hnd2 hsub2 hdeg2 hqueue2 hout2 horder2 hbound2
          refine ⟨c1, c2, c3, ?_, c5, c6⟩
          intro k hk
          apply c4
          rcases List.mem_append.mp hk with h1 | h1
          · exact List.mem_append.mpr (Or.inl (List.mem_append.mpr (Or.inl h1)))
          · rcases List.mem_cons.mp h1 with h2 | h2
            · refine List.mem_append.mpr (Or.inl (List.mem_append.mpr (Or.inr ?_)))
              rw [h2]; exact List.mem_singleton.mpr rfl
            · exact List.mem_append.mpr (Or.inr (List.mem_append.mpr (Or.inl h2)))

/-- The Kahn loop started from the initial queue and in-degrees drains
its queue within the given fuel and emits a duplicate-free list of graph
keys in which every emitted key follows all of its member dependencies;
any key left out has a member dependency that was also left out. -/
theorem kahn_main (g : Dict (Finset String)) (hg : nodupKeys g) :
    (kahnLoop g (g.length + 1) (initQueue g) [] (initDeg g)).2.1 = [] ∧
    (kahnLoop g (g.length + 1) (initQueue g) [] (initDeg g)).1.Nodup ∧
    (∀ k ∈ (kahnLoop g (g.length + 1) (initQueue g) [] (initDeg g)).1, k ∈ dkeys g) ∧
    (∀ key p s,
      (kahnLoop g (g.length + 1) (initQueue g) [] (initDeg g)).1 = p ++ key :: s →
      ∀ dep ∈ memberDeps g key, dep ∈ p) ∧
    (∀ k ∈ dkeys g, k ∉ (kahnLoop g (g.length + 1) (initQueue g) [] (initDeg g)).1 →
      ∃ dep ∈ memberDeps g k,
        dep ∉ (kahnLoop g (g.length + 1) (initQueue g) [] (initDeg g)).1) := by
  have hnd0 : (([] : List String) ++ initQueue g).Nodup := by
    rw [List.nil_append]
    exact hg.filter _
  have hsub0 : ∀ k ∈ ([] : List String) ++ initQueue g, k ∈ dkeys g := by
    intro k hk
    rw [List.nil_append] at hk
    exact (List.mem_filter.mp hk).1
  have hdeg0 : ∀ k, initDeg g k
      = (((memberDeps g k).filter (fun d => d ∉ ([] : List String))).card : Int) := by
    intro k
    rw [Finset.filter_true_of_mem (fun d _ => List.not_mem_nil d)]
    rfl
  have hqueue0 : ∀ k ∈ initQueue g, ∀ dep ∈ memberDeps g k,
      dep ∈ ([] : List String) := by
    intro k hk dep hdep
    obtain ⟨hk1, hk2⟩ := List.mem_filter.mp hk
    have h0 : initDeg g k = 0 := of_decide_eq_true hk2
    have h1 : ((memberDeps g k).card : Int) = 0 := h0
    have hcard : (memberDeps g k).card = 0 := by exact_mod_cast h1
    rw [Finset.card_eq_zero] at hcard
    rw [hcard] at hdep
    exact absurd hdep (Finset.not_mem_empty dep)
  have hout0 : ∀ k ∈ dkeys g, k ∉ ([] : List String) → k ∉ initQueue g →
      initDeg g k ≠ 0 := by
    intro k hkg _ hkq h0
    exact hkq (List.mem_filter.mpr ⟨hkg, decide_eq_true h0⟩)
  have hord0 : ∀ key p s, ([] : List String) = p ++ key :: s →
      ∀ dep ∈ memberDeps g key, dep ∈ p := by
    intro key p s hps
    cases p with
    | nil => exact absurd hps (by simp)
    | cons a t => exact absurd hps (by simp)
  have hbound0 : ((dkeys g).filter
      (fun k => decide (k ∉ ([] : List String)))).length < g.length + 1 := by
    have h1 := List.length_filter_le
      (fun k => decide (k ∉ ([] : List String))) (dkeys g)
    have h2 : (dkeys g).length = g.length := List.length_map _ _
    omega
  obtain ⟨c1, c2, c3, _, c5, c6⟩ := kahnLoop_invariant g hg (g.length + 1)
    (initQueue g) [] (initDeg g) hnd0 hsub0 hdeg0 hqueue0 hout0 hord0 hbound0
  exact ⟨c1, c2, c3, c5, c6⟩

/-- On an acyclic graph the Kahn loop processes every key: no key is left
to the cycle-fallback pass. -/
theorem kahn_complete (g : Dict (Finset String)) (hg : nodupKeys g)
    (hacyc : Acyclic g) :
    ∀ k ∈ dkeys g, k ∈ (kahnLoop g (g.length + 1) (initQueue g) [] (initDeg g)).1 := by
  intro k hk
  by_contra hkn
  have hmain := kahn_main g hg
  have hwf : WellFounded (fun dep key => dep ∈ memberDeps g key) := hacyc
  obtain ⟨m, hm, hmin⟩ := hwf.has_min
    {x | x ∈ dkeys g ∧ x ∉ (kahnLoop g (g.length + 1) (initQueue g) [] (initDeg g)).1}
    ⟨k, hk, hkn⟩
  obtain ⟨dep, hdep1, hdep2⟩ := hmain.2.2.2.2 m hm.1 hm.2
  exact hmin dep ⟨memberDeps_mem_dkeys g m dep hdep1, hdep2⟩ hdep1

/-- C4: topological_order terminates with its queue drained inside the
given fuel, returns a duplicate-free list containing exactly the keys of
the dependency graph; on an acyclic graph every member dependency of a
key appears in the list strictly before the key; and on the 2-cycle
graph x→y→x it returns exactly [x, y] without error. -/
theorem claim_C4 (g : Dict (Finset String)) (hg : nodupKeys g) :
    (topological_order g).Nodup
    ∧ (∀ k, k ∈ topological_order g ↔ k ∈ dkeys g)
    ∧ (Acyclic g → ∀ key deps dep, dget g key = some deps → dep ∈ deps →
        dep ∈ dkeys g → ∃ p s, topological_order g = p ++ key :: s ∧ dep ∈ p)
    ∧ (kahnLoop g (g.length + 1) (initQueue g) [] (initDeg g)).2.1 = []
    ∧ topological_order gCycle = ["x", "y"] := by
  obtain ⟨hdrain, hnodup, hsub, hord, hleft⟩ := kahn_main g hg
  have htopo : topological_order g = (dkeys g).foldl
      (fun acc k => if k ∈ acc then acc else acc ++ [k])
      (kahnLoop g (g.length + 1) (initQueue g) [] (initDeg g)).1 := rfl
  refine ⟨?_, ?_, ?_, hdrain, rfl⟩
  · rw [htopo]
    exact remaining_fold_nodup (dkeys g) _ hnodup
  · intro k
    rw [htopo, remaining_fold_mem]
    constructor
    · rintro (h1 | h1)
      · exact hsub k h1
      · exact h1
    · exact fun h1 => Or.inr h1
  · intro hacyc key deps dep hget hdep hdepg
    have hcomp := kahn_complete g hg hacyc
    have heq : topological_order g
        = (kahnLoop g (g.length + 1) (initQueue g) [] (initDeg g)).1 := by
      rw [htopo]
      exact remaining_fold_eq_self _ _ hcomp
    have hkeyg : key ∈ dkeys g := by
      rw [← dget_isSome_iff, hget]; rfl
    obtain ⟨p, s, hps⟩ := List.append_of_mem (hcomp key hkeyg)
    refine ⟨p, s, by rw [heq, hps], ?_⟩
    have hmd : dep ∈ memberDeps g key := by
      rw [memberDeps, hget]
      exact Finset.mem_inter.mpr ⟨hdep, List.mem_toFinset.mpr hdepg⟩
    exact hord key p s hps dep hmd

/-- C4 witness: on the chain graph c→b→a all three keys are returned
without duplicates and b precedes c, acyclicity witnessed by the rank
a=0, b=1, c=2. -/
theorem claim_C4_witness :
    ((topological_order gChain).Nodup
      ∧ ("a" ∈ topological_order gChain ↔ "a" ∈ dkeys gChain))
    ∧ (∃ p s, topological_order gChain = p ++ "c" :: s ∧ "b" ∈ p) := by
  have h := claim_C4 gChain (by decide)
  exact ⟨⟨h.1, h.2.1 "a"⟩,
    h.2.2.1 (acyclic_of_rank gChain
        (fun k => if k = "a" then 0 else if k = "b" then 1 else 2) (by decide))
      "c" {"b"} "b" rfl (by decide) (by decide)⟩

end AutoSlicer
